import Mathlib

/-
Verification of the affine map normalization and composition engine
(AffineOps.cpp together with the AffineMap interface).

The development shallowly embeds the data model (affine expressions, affine
maps, IR values with their provenance) and the operations of the engine:
the operand classifiers, the AffineApplyNormalizer, the canonicalizer, the
composition entry points, the rewrite-rule driver and affine.apply folding.
Definitions are translated from AffineOps.cpp; the handful of map primitives
whose implementation file is not part of the provided sources
(AffineMap.cpp: replaceDimsAndSymbols, compose, constantFold,
simplifyAffineMap, and the constant kMaxAffineApplyDepth) are modelled from
the specification and the documentation in AffineMap.h, and are marked as
such in their doc comments.
-/

namespace MLIRAffine

/-- Affine expression tree (data model): dimension references, symbol
references, integer constants and the five binary operations. Expressions
are globally uniqued in the implementation, so structural equality of this
inductive coincides with identity of the uniqued instance. -/
inductive AffineExpr : Type where
  | dim (pos : Nat)
  | symbol (pos : Nat)
  | constant (value : Int)
  | add (lhs rhs : AffineExpr)
  | mul (lhs rhs : AffineExpr)
  | floorDiv (lhs rhs : AffineExpr)
  | ceilDiv (lhs rhs : AffineExpr)
  | mod (lhs rhs : AffineExpr)
deriving DecidableEq, Repr

/-- Mathematical evaluation of an affine expression given the values of the
dimension operands and of the symbol operands. Floor division, ceiling
division and modulo use the mathematical (flooring) convention, per the
specification of the integer semantics. -/
def AffineExpr.eval (dims syms : List Int) : AffineExpr → Int
  | .dim p => dims.getD p 0
  | .symbol p => syms.getD p 0
  | .constant c => c
  | .add l r => l.eval dims syms + r.eval dims syms
  | .mul l r => l.eval dims syms * r.eval dims syms
  | .floorDiv l r => Int.fdiv (l.eval dims syms) (r.eval dims syms)
  | .ceilDiv l r => -(Int.fdiv (-(l.eval dims syms)) (r.eval dims syms))
  | .mod l r => Int.fmod (l.eval dims syms) (r.eval dims syms)

/-- Modelled from the spec: expression-level substitution underlying
AffineMap::replaceDimsAndSymbols (its implementation file is not among the
provided sources). Every dimension reference at position i is replaced by
the i-th dimension replacement if present, and is otherwise left referring
to position i unchanged; symbol references likewise. Substitution rebuilds
the tree bottom-up. -/
def AffineExpr.replaceDimsAndSymbols (dimRepl symRepl : List AffineExpr) :
    AffineExpr → AffineExpr
  | .dim p => dimRepl.getD p (.dim p)
  | .symbol p => symRepl.getD p (.symbol p)
  | .constant c => .constant c
  | .add l r =>
      .add (l.replaceDimsAndSymbols dimRepl symRepl) (r.replaceDimsAndSymbols dimRepl symRepl)
  | .mul l r =>
      .mul (l.replaceDimsAndSymbols dimRepl symRepl) (r.replaceDimsAndSymbols dimRepl symRepl)
  | .floorDiv l r =>
      .floorDiv (l.replaceDimsAndSymbols dimRepl symRepl) (r.replaceDimsAndSymbols dimRepl symRepl)
  | .ceilDiv l r =>
      .ceilDiv (l.replaceDimsAndSymbols dimRepl symRepl) (r.replaceDimsAndSymbols dimRepl symRepl)
  | .mod l r =>
      .mod (l.replaceDimsAndSymbols dimRepl symRepl) (r.replaceDimsAndSymbols dimRepl symRepl)

/-- Does the expression reference dimension position i (used by the
walkExprs scan of canonicalizeMapOrSetAndOperands). -/
def AffineExpr.usesDim (i : Nat) : AffineExpr → Bool
  | .dim p => p == i
  | .symbol _ => false
  | .constant _ => false
  | .add l r => l.usesDim i || r.usesDim i
  | .mul l r => l.usesDim i || r.usesDim i
  | .floorDiv l r => l.usesDim i || r.usesDim i
  | .ceilDiv l r => l.usesDim i || r.usesDim i
  | .mod l r => l.usesDim i || r.usesDim i

/-- Does the expression reference symbol position i. -/
def AffineExpr.usesSymbol (i : Nat) : AffineExpr → Bool
  | .dim _ => false
  | .symbol p => p == i
  | .constant _ => false
  | .add l r => l.usesSymbol i || r.usesSymbol i
  | .mul l r => l.usesSymbol i || r.usesSymbol i
  | .floorDiv l r => l.usesSymbol i || r.usesSymbol i
  | .ceilDiv l r => l.usesSymbol i || r.usesSymbol i
  | .mod l r => l.usesSymbol i || r.usesSymbol i

/-- All dimension references of the expression are below n (well-formedness
bound; the data-model invariant that a DimRef position is below the
enclosing map's dimension count). -/
def AffineExpr.dimsBelow (n : Nat) : AffineExpr → Bool
  | .dim p => p < n
  | .symbol _ => true
  | .constant _ => true
  | .add l r => l.dimsBelow n && r.dimsBelow n
  | .mul l r => l.dimsBelow n && r.dimsBelow n
  | .floorDiv l r => l.dimsBelow n && r.dimsBelow n
  | .ceilDiv l r => l.dimsBelow n && r.dimsBelow n
  | .mod l r => l.dimsBelow n && r.dimsBelow n

/-- All symbol references of the expression are below n. -/
def AffineExpr.symsBelow (n : Nat) : AffineExpr → Bool
  | .dim _ => true
  | .symbol p => p < n
  | .constant _ => true
  | .add l r => l.symsBelow n && r.symsBelow n
  | .mul l r => l.symsBelow n && r.symsBelow n
  | .floorDiv l r => l.symsBelow n && r.symsBelow n
  | .ceilDiv l r => l.symsBelow n && r.symsBelow n
  | .mod l r => l.symsBelow n && r.symsBelow n

/-- An affine map: dimension count, symbol count, and the ordered result
expressions. Maps are uniqued in the implementation, so structural equality
of this structure coincides with identity comparison of AffineMap. -/
structure AffineMap where
  numDims : Nat
  numSymbols : Nat
  results : List AffineExpr
deriving DecidableEq, Repr

/-- Number of results of the map. -/
def AffineMap.numResults (m : AffineMap) : Nat := m.results.length

/-- Number of inputs (dimension operands followed by symbol operands). -/
def AffineMap.numInputs (m : AffineMap) : Nat := m.numDims + m.numSymbols

/-- AffineMap::replaceDimsAndSymbols: substitute every dim/symbol reference
in every result, returning a map with the stated new dim and symbol counts
and the substituted result list (same length and order). The substitution
itself is modelled from the spec, see AffineExpr.replaceDimsAndSymbols. -/
def AffineMap.replaceDimsAndSymbols (m : AffineMap) (dimRepl symRepl : List AffineExpr)
    (numResultDims numResultSyms : Nat) : AffineMap :=
  ⟨numResultDims, numResultSyms,
    m.results.map (AffineExpr.replaceDimsAndSymbols dimRepl symRepl)⟩

/-- Modelled from the spec: AffineMap::compose (its implementation file is
not among the provided sources; this follows the contract documented in
AffineMap.h). The result has as many dimensions as the producer map and the
symbols of the consumer followed by the renumbered symbols of the producer;
every result of the consumer has its dimension references replaced by the
producer's results (with the producer's symbols shifted), and its own symbol
references left at their positions. -/
def AffineMap.compose (a b : AffineMap) : AffineMap :=
  let newDims := (List.range b.numDims).map AffineExpr.dim
  let newSyms := (List.range b.numSymbols).map (fun i => AffineExpr.symbol (a.numSymbols + i))
  let newMap := b.replaceDimsAndSymbols newDims newSyms b.numDims (a.numSymbols + b.numSymbols)
  ⟨b.numDims, a.numSymbols + b.numSymbols,
    a.results.map (AffineExpr.replaceDimsAndSymbols newMap.results [])⟩

/-- Evaluate every result of the map on a single operand value list laid out
as dimension values followed by symbol values. -/
def AffineMap.evalMap (m : AffineMap) (vals : List Int) : List Int :=
  m.results.map (fun e => e.eval (vals.take m.numDims) (vals.drop m.numDims))

/-- Does any result of the map reference dimension position i. -/
def AffineMap.usesDim (m : AffineMap) (i : Nat) : Bool :=
  m.results.any (fun e => e.usesDim i)

/-- Does any result of the map reference symbol position i. -/
def AffineMap.usesSymbol (m : AffineMap) (i : Nat) : Bool :=
  m.results.any (fun e => e.usesSymbol i)

/-- Well-formedness of a map: every dimension reference is below the
dimension count and every symbol reference below the symbol count. -/
def AffineMap.wf (m : AffineMap) : Bool :=
  m.results.all (fun e => e.dimsBelow m.numDims && e.symsBelow m.numSymbols)

/-- Wrapping to the signed 64-bit range, the integer semantics the spec
prescribes for constant folding of add and mul. -/
def i64wrap (x : Int) : Int := (x + 2 ^ 63) % 2 ^ 64 - 2 ^ 63

/-- Modelled from the spec: constant folding of one expression given a
parallel operand-constant list (dimension operands first). Fails (none) on a
non-constant leaf and on a zero divisor, which the spec requires to be an
explicit failure rather than a crash; add and mul wrap per fixed-width
signed 64-bit arithmetic, the divisions use the flooring convention. -/
def AffineExpr.constantFoldExpr (numDims : Nat) (operandConstants : List (Option Int)) :
    AffineExpr → Option Int
  | .dim p => operandConstants.getD p none
  | .symbol p => operandConstants.getD (numDims + p) none
  | .constant c => some c
  | .add l r => do
      pure (i64wrap ((← l.constantFoldExpr numDims operandConstants) +
        (← r.constantFoldExpr numDims operandConstants)))
  | .mul l r => do
      pure (i64wrap ((← l.constantFoldExpr numDims operandConstants) *
        (← r.constantFoldExpr numDims operandConstants)))
  | .floorDiv l r => do
      let a ← l.constantFoldExpr numDims operandConstants
      let b ← r.constantFoldExpr numDims operandConstants
      if b = 0 then none else pure (Int.fdiv a b)
  | .ceilDiv l r => do
      let a ← l.constantFoldExpr numDims operandConstants
      let b ← r.constantFoldExpr numDims operandConstants
      if b = 0 then none else pure (-(Int.fdiv (-a) b))
  | .mod l r => do
      let a ← l.constantFoldExpr numDims operandConstants
      let b ← r.constantFoldExpr numDims operandConstants
      if b = 0 then none else pure (Int.fmod a b)

/-- Modelled from the spec: AffineMap::constantFold. Succeeds with the list
of folded results only when every result expression folds. -/
def AffineMap.constantFold (m : AffineMap) (operandConstants : List (Option Int)) :
    Option (List Int) :=
  m.results.mapM (AffineExpr.constantFoldExpr m.numDims operandConstants)

/-- Modelled from the spec: the algebraic simplification run by the
Normalizer on the composed map lives in a source file that is not provided;
per the spec it folds constant subtrees (with the wrapping and flooring
conventions above) and never changes the dimension or symbol counts. It is
modelled here as recursive folding of constant subtrees. -/
def AffineExpr.simplifyExpr : AffineExpr → AffineExpr
  | .add l r =>
      match l.simplifyExpr, r.simplifyExpr with
      | .constant a, .constant b => .constant (i64wrap (a + b))
      | l', r' => .add l' r'
  | .mul l r =>
      match l.simplifyExpr, r.simplifyExpr with
      | .constant a, .constant b => .constant (i64wrap (a * b))
      | l', r' => .mul l' r'
  | .floorDiv l r =>
      match l.simplifyExpr, r.simplifyExpr with
      | .constant a, .constant b =>
          if b = 0 then .floorDiv (.constant a) (.constant b) else .constant (Int.fdiv a b)
      | l', r' => .floorDiv l' r'
  | .ceilDiv l r =>
      match l.simplifyExpr, r.simplifyExpr with
      | .constant a, .constant b =>
          if b = 0 then .ceilDiv (.constant a) (.constant b) else .constant (-(Int.fdiv (-a) b))
      | l', r' => .ceilDiv l' r'
  | .mod l r =>
      match l.simplifyExpr, r.simplifyExpr with
      | .constant a, .constant b =>
          if b = 0 then .mod (.constant a) (.constant b) else .constant (Int.fmod a b)
      | l', r' => .mod l' r'
  | e => e

/-- Modelled from the spec: simplifyAffineMap simplifies every result
expression and keeps the dimension and symbol counts. -/
def simplifyAffineMap (m : AffineMap) : AffineMap :=
  ⟨m.numDims, m.numSymbols, m.results.map AffineExpr.simplifyExpr⟩

/-- An IR value as the engine observes it: its identity, whether its type is
the index type, and its provenance, which is what the operand classifiers
and the Normalizer dispatch on. Block arguments of a function, of an
affine.for (the induction variables) and of any other region-holding
operation; results of a constant operation, of an affine.apply (carrying its
map and operand list: a producer edge), of a dim operation (abstracted by
whether its memref operand is top level and whether its dynamic size is
backed by a valid symbol), and of any other operation. The inFunc flag of an
operation result records whether the defining operation sits in the region
immediately attached to a function. Values are compared by identity; the id
field separates structurally similar but distinct values. -/
inductive Val : Type where
  | funcArg (id : Nat) (idx : Bool)
  | forArg (id : Nat) (idx : Bool)
  | otherArg (id : Nat) (idx : Bool)
  | constantRes (id : Nat) (idx : Bool) (inFunc : Bool) (value : Int)
  | applyRes (id : Nat) (idx : Bool) (inFunc : Bool) (map : AffineMap) (operands : List Val)
  | dimRes (id : Nat) (idx : Bool) (inFunc : Bool) (memrefTopLevel : Bool) (sizeValidSym : Bool)
  | otherRes (id : Nat) (idx : Bool) (inFunc : Bool)

mutual

/-- Weight of a value: one for a non-producer value, one more than the
weight of the operand list for an affine.apply result. The measure that
shrinks when a producer edge is removed. -/
def Val.w : Val → Nat
  | .applyRes _ _ _ _ ops => 1 + Val.wList ops
  | _ => 1

/-- Total weight of a value list. -/
def Val.wList : List Val → Nat
  | [] => 0
  | v :: vs => Val.w v + Val.wList vs

end

mutual

/-- Boolean structural equality on values (identity comparison of the
embedded IR values); the decidable-equality instance below is built on it. -/
def Val.beq : Val → Val → Bool
  | .funcArg i x, .funcArg i' x' => i == i' && x == x'
  | .forArg i x, .forArg i' x' => i == i' && x == x'
  | .otherArg i x, .otherArg i' x' => i == i' && x == x'
  | .constantRes i x f c, .constantRes i' x' f' c' => i == i' && x == x' && f == f' && c == c'
  | .applyRes i x f m o, .applyRes i' x' f' m' o' =>
      i == i' && x == x' && f == f' && m == m' && Val.beqList o o'
  | .dimRes i x f t s, .dimRes i' x' f' t' s' =>
      i == i' && x == x' && f == f' && t == t' && s == s'
  | .otherRes i x f, .otherRes i' x' f' => i == i' && x == x' && f == f'
  | _, _ => false

/-- Elementwise boolean equality on value lists. -/
def Val.beqList : List Val → List Val → Bool
  | [], [] => true
  | v :: vs, w :: ws => Val.beq v w && Val.beqList vs ws
  | _, _ => false

end

/-- Soundness and completeness of the boolean equality, by strong induction
on the weight; this only exists to support the decidable-equality instance
for values. -/
theorem Val.beq_iff_eq :
    ∀ n, ∀ a b : Val, Val.w a ≤ n → ((Val.beq a b = true) ↔ a = b) := by
  intro n
  induction n using Nat.strong_induction_on with
  | _ n IH =>
    have hlist : ∀ l m : List Val, Val.wList l < n → ((Val.beqList l m = true) ↔ l = m) := by
      intro l
      induction l with
      | nil =>
        intro m _
        cases m <;> simp [Val.beqList]
      | cons v vs ihvs =>
        intro m hw
        cases m with
        | nil => simp [Val.beqList]
        | cons w ws =>
          have hv : Val.w v < n := by
            have h1 : 1 ≤ Val.w v + Val.wList vs :=
              le_trans (by cases v <;> simp [Val.w]) (Nat.le_add_right _ _)
            simp [Val.wList] at hw
            omega
          have hvs : Val.wList vs < n := by
            simp [Val.wList] at hw
            omega
          simp only [Val.beqList, Bool.and_eq_true]
          rw [IH (Val.w v) hv v w le_rfl, ihvs ws hvs]
          simp
    intro a b ha
    cases a <;> cases b <;>
      simp only [Val.beq, Bool.and_eq_true, beq_iff_eq, Val.funcArg.injEq, Val.forArg.injEq,
        Val.otherArg.injEq, Val.constantRes.injEq, Val.applyRes.injEq, Val.dimRes.injEq,
        Val.otherRes.injEq]
    case applyRes.applyRes i x f m o i' x' f' m' o' =>
      have ho : Val.wList o < n := by
        simp only [Val.w] at ha
        omega
      rw [hlist o o' ho]
      constructor <;> intro h <;> simp_all
    all_goals first
      | exact iff_of_false (fun h => Bool.noConfusion h) (fun h => Val.noConfusion h)
      | (constructor <;> intro h <;> simp_all)

instance : DecidableEq Val := fun a b =>
  decidable_of_iff (Val.beq a b = true) (Val.beq_iff_eq (Val.w a) a b le_rfl)

/-- The identity of a value. -/
def Val.id : Val → Nat
  | .funcArg i _ => i
  | .forArg i _ => i
  | .otherArg i _ => i
  | .constantRes i _ _ _ => i
  | .applyRes i _ _ _ _ => i
  | .dimRes i _ _ _ _ => i
  | .otherRes i _ _ => i

/-- Whether the value's type is the index type. -/
def Val.isIndexType : Val → Bool
  | .funcArg _ b => b
  | .forArg _ b => b
  | .otherArg _ b => b
  | .constantRes _ b _ _ => b
  | .applyRes _ b _ _ _ => b
  | .dimRes _ b _ _ _ => b
  | .otherRes _ b _ => b

/-- Whether the value is the result of an affine.apply operation (the
isa AffineApplyOp test on the defining operation). -/
def Val.definedByApply : Val → Bool
  | .applyRes _ _ _ _ _ => true
  | _ => false

/-- The matchPattern m_Constant test: the constant value when the defining
operation is a constant operation. -/
def Val.getConstant : Val → Option Int
  | .constantRes _ _ _ c => some c
  | _ => none

/-- isTopLevelValue: a block argument is top level when its owning region is
attached to a function; an operation result is top level when its defining
operation's parent region is attached to a function. -/
def isTopLevelValue : Val → Bool
  | .funcArg _ _ => true
  | .forArg _ _ => false
  | .otherArg _ _ => false
  | .constantRes _ _ inFunc _ => inFunc
  | .applyRes _ _ inFunc _ _ => inFunc
  | .dimRes _ _ inFunc _ _ => inFunc
  | .otherRes _ _ inFunc => inFunc

mutual

/-- mlir::isValidDim, translated case by case: the value must have index
type; an operation result is a valid dim when its defining operation is in a
function region or is a constant, when it is an affine.apply all of whose
operands are valid dims (AffineApplyOp::isValidDim), or when it is a dim
operation whose memref operand is top level; a block argument is a valid dim
when its parent operation is a function or an affine.for. -/
def isValidDim : Val → Bool
  | .funcArg _ idx => idx
  | .forArg _ idx => idx
  | .otherArg _ _ => false
  | .constantRes _ idx _ _ => idx
  | .applyRes _ idx inFunc _ ops => idx && (inFunc || allValidDims ops)
  | .dimRes _ idx inFunc memrefTopLevel _ => idx && (inFunc || memrefTopLevel)
  | .otherRes _ idx inFunc => idx && inFunc

/-- llvm::all_of over the operands with mlir::isValidDim. -/
def allValidDims : List Val → Bool
  | [] => true
  | v :: vs => isValidDim v && allValidDims vs

end

mutual

/-- mlir::isValidSymbol, translated case by case: index type required; an
operation result is a valid symbol when its defining operation is in a
function region or is a constant, when it is an affine.apply all of whose
operands are valid symbols (AffineApplyOp::isValidSymbol), or when it is a
dim operation that is a valid symbol (memref operand top level, or a
view/subview/alloc size that is statically known or backed by a valid
symbol, abstracted by the sizeValidSym flag); otherwise the value must be a
top level value. -/
def isValidSymbol : Val → Bool
  | .funcArg _ idx => idx
  | .forArg _ _ => false
  | .otherArg _ _ => false
  | .constantRes _ idx _ _ => idx
  | .applyRes _ idx inFunc _ ops => idx && (inFunc || allValidSymbols ops)
  | .dimRes _ idx inFunc memrefTopLevel sizeValidSym =>
      idx && (inFunc || memrefTopLevel || sizeValidSym)
  | .otherRes _ idx inFunc => idx && inFunc

/-- llvm::all_of over the operands with mlir::isValidSymbol. -/
def allValidSymbols : List Val → Bool
  | [] => true
  | v :: vs => isValidSymbol v && allValidSymbols vs

end

mutual

/-- Semantics of a value under an integer assignment to the non-producer
values (by identity): a constant evaluates to its constant, an affine.apply
result evaluates its map's first result on the recursively evaluated
operands, and every other value receives the assigned integer. -/
def Val.eval (ρ : Nat → Int) : Val → Int
  | .applyRes _ _ _ map ops =>
      let vals := Val.evalList ρ ops
      (map.results.getD 0 (.constant 0)).eval (vals.take map.numDims) (vals.drop map.numDims)
  | .constantRes _ _ _ c => c
  | .funcArg i _ => ρ i
  | .forArg i _ => ρ i
  | .otherArg i _ => ρ i
  | .dimRes i _ _ _ _ => ρ i
  | .otherRes i _ _ => ρ i

/-- Pointwise evaluation of a value list. -/
def Val.evalList (ρ : Nat → Int) : List Val → List Int
  | [] => []
  | v :: vs => Val.eval ρ v :: Val.evalList ρ vs

end

/-- First position of a value in a list (by identity), the lookup behind the
DenseMap and SmallDenseMap position maps. -/
def posOf (v : Val) : List Val → Option Nat
  | [] => none
  | w :: ws => if w = v then some 0 else (posOf v ws).map (· + 1)

/-- Modelled from the spec: the fixed recursion bound kMaxAffineApplyDepth of
the Normalizer is declared in a header that is not among the provided
sources; the source asserts it is positive and the spec calls it a small
constant. The historical value is one. The depth-exhaustion claims are
proved for any depth exceeding the bound, whatever its positive value. -/
def kMaxAffineApplyDepth : Nat := 1

/-- The ephemeral state of an AffineApplyNormalizer: the dimension operands
in assignment order (the dimValueToPosition map sends an operand to its
first position in this list) and the accumulated symbol operands. -/
structure NState where
  reorderedDims : List Val
  concatenatedSymbols : List Val
deriving DecidableEq

/-- AffineApplyNormalizer::renumberOneDim: look the value up in
dimValueToPosition, inserting it at the next free position when absent, and
return the dimension expression for its position. -/
def NState.renumberOneDim (st : NState) (v : Val) : NState × AffineExpr :=
  match posOf v st.reorderedDims with
  | some p => (st, .dim p)
  | none => (⟨st.reorderedDims ++ [v], st.concatenatedSymbols⟩, .dim st.reorderedDims.length)

/-- The dimension-remapping loop of AffineApplyNormalizer::renumber: run
renumberOneDim over the other normalizer's reordered dimension operands in
their assignment order, returning the accumulated remapping expressions. -/
def renumberDims (st : NState) : List Val → NState × List AffineExpr
  | [] => (st, [])
  | v :: vs =>
      let r1 := st.renumberOneDim v
      let r2 := renumberDims r1.1 vs
      (r2.1, r1.2 :: r2.2)

/-- AffineApplyNormalizer::renumber: merge the other normalizer's dimension
operands into the current numbering (collapsing identical operand values to
one position), renumber the other's symbols to fresh positions after the
current concatenated symbols, append its symbols, and rewrite its map into
the merged numbering with replaceDimsAndSymbols. -/
def NState.renumber (st : NState) (inner : NState) (innerMap : AffineMap) :
    NState × AffineMap :=
  let r := renumberDims st inner.reorderedDims
  let symRemapping := (List.range inner.concatenatedSymbols.length).map
      (fun idx => AffineExpr.symbol (r.1.concatenatedSymbols.length + idx))
  let st2 : NState := ⟨r.1.reorderedDims, r.1.concatenatedSymbols ++ inner.concatenatedSymbols⟩
  (st2, innerMap.replaceDimsAndSymbols r.2 symRemapping
      st2.reorderedDims.length st2.concatenatedSymbols.length)

/-- The symbol-replacement loop of promoteComposedSymbolsAsDims: each symbol
position whose operand comes from an affine.apply becomes the next new
dimension (after the map's dimensions), every other symbol position is
renumbered to the next new symbol position. -/
def promoteReplacements (numDims newDims newSyms : Nat) : List Val → List AffineExpr
  | [] => []
  | v :: vs =>
      if v.definedByApply then
        AffineExpr.dim (numDims + newDims) :: promoteReplacements numDims (newDims + 1) newSyms vs
      else
        AffineExpr.symbol newSyms :: promoteReplacements numDims newDims (newSyms + 1) vs

/-- promoteComposedSymbolsAsDims: rewrite the symbols of the map that come
from an AffineApplyOp as dimensions ordered after the original dimensions,
so that mathematical composition through dimensions applies to them; returns
the map unchanged when there are no symbols or none comes from an
affine.apply. -/
def promoteComposedSymbolsAsDims (map : AffineMap) (symbols : List Val) : AffineMap :=
  if symbols.isEmpty then map
  else if symbols.all (fun v => !v.definedByApply) then map
  else
    let numNewDims := symbols.countP (fun v => v.definedByApply)
    map.replaceDimsAndSymbols [] (promoteReplacements map.numDims 0 0 symbols)
      (map.numDims + numNewDims) (symbols.length - numNewDims)

/-- The tail of the AffineApplyNormalizer constructor: with the auxiliary
expressions of the operand loop at hand, the composed map is the rewritten
map when no auxiliary expression was produced, and otherwise the rewritten
map composed with the auxiliary map (whose dimension count is the number of
assigned dimension positions and whose symbol count is the number of
concatenated symbols beyond the rewritten map's own) and simplified. -/
def normalizerResult (rmap : AffineMap) (st : NState) (auxiliaryExprs : List AffineExpr) :
    AffineMap :=
  if auxiliaryExprs.isEmpty then rmap
  else
    simplifyAffineMap (rmap.compose
      ⟨st.reorderedDims.length, st.concatenatedSymbols.length - rmap.numSymbols, auxiliaryExprs⟩)

/-- The operand loop of the AffineApplyNormalizer constructor, one uniform
recursion over the operands carrying the running index. The two loops of the
source (depth exhausted and composing) are merged on the furtherCompose
flag, which is constant across one constructor run. When composing, an
operand produced by an affine.apply is normalized recursively (the inlined
body of the recursive constructor call, at depth one deeper) and renumbered
into the current state, its single renumbered result becoming the auxiliary
expression; a non-producer operand below numDimsBeforeRewrite is renumbered
as a dimension and any other non-producer operand is appended to the
concatenated symbols. When the depth is exhausted, the dispatch is purely
positional against the rewritten map's dimension count: dimensions are
renumbered, symbols appended verbatim. -/
def normGo (depth : Nat) (furtherCompose : Bool) (numDimsBeforeRewrite rewrittenNumDims i : Nat)
    (ops : List Val) (st : NState) : NState × List AffineExpr :=
  match ops with
  | [] => (st, [])
  | t :: rest =>
    if furtherCompose then
      match t with
      | .applyRes _ _ _ amap aops =>
          let rmapInner := promoteComposedSymbolsAsDims amap (aops.drop amap.numDims)
          let rInner := normGo (depth + 1) (decide (depth + 1 ≤ kMaxAffineApplyDepth))
              amap.numDims rmapInner.numDims 0 aops ⟨[], []⟩
          let innerMap := normalizerResult rmapInner rInner.1 rInner.2
          let rRenum := st.renumber rInner.1 innerMap
          let rRest := normGo depth furtherCompose numDimsBeforeRewrite rewrittenNumDims (i + 1)
              rest rRenum.1
          (rRest.1, (rRenum.2.results.getD 0 (.constant 0)) :: rRest.2)
      | _ =>
          if i < numDimsBeforeRewrite then
            let r1 := st.renumberOneDim t
            let rRest := normGo depth furtherCompose numDimsBeforeRewrite rewrittenNumDims (i + 1)
                rest r1.1
            (rRest.1, r1.2 :: rRest.2)
          else
            let st1 : NState := ⟨st.reorderedDims, st.concatenatedSymbols ++ [t]⟩
            let rRest := normGo depth furtherCompose numDimsBeforeRewrite rewrittenNumDims (i + 1)
                rest st1
            (rRest.1, rRest.2)
    else
      if i < rewrittenNumDims then
        let r1 := st.renumberOneDim t
        let rRest := normGo depth furtherCompose numDimsBeforeRewrite rewrittenNumDims (i + 1)
            rest r1.1
        (rRest.1, r1.2 :: rRest.2)
      else
        let st1 : NState := ⟨st.reorderedDims, st.concatenatedSymbols ++ [t]⟩
        let rRest := normGo depth furtherCompose numDimsBeforeRewrite rewrittenNumDims (i + 1)
            rest st1
        (rRest.1, rRest.2)

/-- The AffineApplyNormalizer constructor at a given call depth: promote the
apply-produced symbols to dimensions, run the operand loop (composing
recursively only while the depth does not exceed kMaxAffineApplyDepth), and
finish with normalizerResult. Returns the normalizer's state and map. -/
def applyNormalizer (depth : Nat) (map : AffineMap) (operands : List Val) :
    NState × AffineMap :=
  let rmap := promoteComposedSymbolsAsDims map (operands.drop map.numDims)
  let r := normGo depth (decide (depth ≤ kMaxAffineApplyDepth)) map.numDims rmap.numDims 0
      operands ⟨[], []⟩
  (r.1, normalizerResult rmap r.1 r.2)

/-- AffineApplyNormalizer::getOperands: the reordered dimension operands
followed by the concatenated symbol operands. -/
def NState.getOperands (st : NState) : List Val :=
  st.reorderedDims ++ st.concatenatedSymbols

/-- AffineApplyNormalizer::normalize on a normalizer with state st: build a
normalizer for the other pair (the constructor run inside normalize sees the
enclosing normalizer still alive, hence the explicit depth argument),
renumber its map into st, and replace the other operand list by the merged
getOperands. Returns the merged state together with the rewritten map and
the new operand list. -/
def NState.normalize (st : NState) (depth : Nat) (otherMap : AffineMap)
    (otherOperands : List Val) : NState × AffineMap × List Val :=
  let other := applyNormalizer depth otherMap otherOperands
  let r := st.renumber other.1 other.2
  (r.1, r.2, r.1.getOperands)

/-- The loop of canonicalizePromotedSymbols over the dimension section of
the operand list, carrying the nextDim and nextSym counters: a dimension
operand that is a valid symbol is remapped to a fresh symbol position after
the old symbols and collected separately (remappedSymbols); any other
dimension operand keeps a renumbered dimension position and is collected in
order (resultOperands). Returns the dimension remapping, the kept dimension
operands and the promoted operands. -/
def promoSplit (oldNumSyms nextDim nextSym : Nat) :
    List Val → List AffineExpr × List Val × List Val
  | [] => ([], [], [])
  | v :: vs =>
      if isValidSymbol v then
        let r := promoSplit oldNumSyms nextDim (nextSym + 1) vs
        (AffineExpr.symbol (oldNumSyms + nextSym) :: r.1, r.2.1, v :: r.2.2)
      else
        let r := promoSplit oldNumSyms (nextDim + 1) nextSym vs
        (AffineExpr.dim nextDim :: r.1, v :: r.2.1, r.2.2)

/-- canonicalizePromotedSymbols: dimension operands that are valid symbols
are moved into symbol positions appended after the existing symbols; the
remaining dimensions are renumbered contiguously; the operand list becomes
the kept dimensions, then the old symbol operands, then the promoted
operands; returns the input unchanged on an empty operand list. -/
def canonicalizePromotedSymbols (map : AffineMap) (operands : List Val) :
    AffineMap × List Val :=
  if operands.isEmpty then (map, operands)
  else
    let dims := operands.take map.numDims
    let syms := operands.drop map.numDims
    let r := promoSplit map.numSymbols 0 0 dims
    (map.replaceDimsAndSymbols r.1 [] r.2.1.length (map.numSymbols + r.2.2.length),
      r.2.1 ++ syms ++ r.2.2)

/-- The dimension loop of canonicalizeMapOrSetAndOperands: an unused
dimension position is dropped (its remapping entry is never consulted, a
placeholder stands for the null expression of the source); a used position
holding an operand already seen is remapped to that operand's assigned
position; otherwise the operand is assigned the next position and kept. The
seen list holds the kept operands in assignment order, so a value's assigned
position is its first position in that list. -/
def canonDims (usedf : Nat → Bool) (i : Nat) (seen : List Val) :
    List Val → List AffineExpr × List Val
  | [] => ([], [])
  | v :: vs =>
      if usedf i then
        match posOf v seen with
        | some k =>
            let r := canonDims usedf (i + 1) seen vs
            (AffineExpr.dim k :: r.1, r.2)
        | none =>
            let r := canonDims usedf (i + 1) (seen ++ [v]) vs
            (AffineExpr.dim seen.length :: r.1, v :: r.2)
      else
        let r := canonDims usedf (i + 1) seen vs
        (AffineExpr.dim 0 :: r.1, r.2)

/-- The symbol loop of canonicalizeMapOrSetAndOperands: as for dimensions,
except that a used symbol position whose operand is a compile-time constant
is remapped to the literal constant expression and its operand slot is
dropped. -/
def canonSyms (usedf : Nat → Bool) (i : Nat) (seen : List Val) :
    List Val → List AffineExpr × List Val
  | [] => ([], [])
  | v :: vs =>
      if usedf i then
        match v.getConstant with
        | some c =>
            let r := canonSyms usedf (i + 1) seen vs
            (AffineExpr.constant c :: r.1, r.2)
        | none =>
            match posOf v seen with
            | some k =>
                let r := canonSyms usedf (i + 1) seen vs
                (AffineExpr.symbol k :: r.1, r.2)
            | none =>
                let r := canonSyms usedf (i + 1) (seen ++ [v]) vs
                (AffineExpr.symbol seen.length :: r.1, v :: r.2)
      else
        let r := canonSyms usedf (i + 1) seen vs
        (AffineExpr.symbol 0 :: r.1, r.2)

/-- canonicalizeMapOrSetAndOperands (for an affine map): return the input
unchanged on an empty operand list; otherwise promote valid-symbol
dimensions, scan which dimension and symbol positions the map references,
drop unused positions, unify duplicate operands within the dimensions and
within the symbols, fold constant symbol operands into the map, and rebuild
the map with the collected remappings and counts. -/
def canonicalizeMapOrSetAndOperands (map : AffineMap) (operands : List Val) :
    AffineMap × List Val :=
  if operands.isEmpty then (map, operands)
  else
    let p := canonicalizePromotedSymbols map operands
    let map1 := p.1
    let ops1 := p.2
    let rd := canonDims (fun k => map1.usesDim k) 0 [] (ops1.take map1.numDims)
    let rs := canonSyms (fun k => map1.usesSymbol k) 0 [] (ops1.drop map1.numDims)
    (map1.replaceDimsAndSymbols rd.1 rs.1 rd.2.length rs.2.length, rd.2 ++ rs.2)

/-- mlir::canonicalizeMapAndOperands, the AffineMap instantiation of
canonicalizeMapOrSetAndOperands. -/
def canonicalizeMapAndOperands (map : AffineMap) (operands : List Val) :
    AffineMap × List Val :=
  canonicalizeMapOrSetAndOperands map operands

/-- composeAffineMapAndOperands: run the AffineApplyNormalizer (at top
level, depth one) and then canonicalizeMapAndOperands on its map and
operands. -/
def composeAffineMapAndOperands (map : AffineMap) (operands : List Val) :
    AffineMap × List Val :=
  let n := applyNormalizer 1 map operands
  canonicalizeMapAndOperands n.2 n.1.getOperands

/-- The while loop of fullyComposeAffineMapAndOperands with an explicit
iteration count: repeat composeAffineMapAndOperands while any operand is
produced by an affine.apply, for at most the given number of rounds. -/
def composeIterate : Nat → AffineMap → List Val → AffineMap × List Val
  | 0, m, o => (m, o)
  | n + 1, m, o =>
      if o.any Val.definedByApply then
        let r := composeAffineMapAndOperands m o
        composeIterate n r.1 r.2
      else (m, o)

/-- mlir::fullyComposeAffineMapAndOperands: iterate single-step composition
while any operand is an affine.apply result. The loop has no explicit bound
in the source; the total operand weight strictly decreases at every round
(proved below), so running it for the initial weight of the operand list,
plus one, reaches the loop's exit condition and hence computes the loop's
result. -/
def fullyComposeAffineMapAndOperands (map : AffineMap) (operands : List Val) :
    AffineMap × List Val :=
  composeIterate (Val.wList operands + 1) map operands

/-- The result of AffineApplyOp::fold: an existing operand value or a folded
constant attribute. -/
inductive OpFoldResult where
  | value (v : Val)
  | attr (c : Int)
deriving DecidableEq

/-- AffineApplyOp::fold: when the map's (single) result expression is a bare
dimension or symbol reference, return the matching operand directly;
otherwise attempt map.constantFold on the operand constants, returning its
first result on success and nothing on failure. -/
def affineApplyFold (map : AffineMap) (operands : List Val)
    (operandConstants : List (Option Int)) : Option OpFoldResult :=
  match map.results.getD 0 (.constant 0) with
  | .dim p => some (.value (operands.getD p (.otherArg 0 false)))
  | .symbol p => some (.value (operands.getD (map.numDims + p) (.otherArg 0 false)))
  | _ =>
      match map.constantFold operandConstants with
      | some rs => some (.attr (rs.getD 0 0))
      | none => none

/-- SimplifyAffineOp::matchAndRewrite: compose the operation's map and
operands; when both the map (by identity) and the operand list (by content)
are unchanged report match failure (none), otherwise replace the operation
with the composed pair (some). The element comparison of the source is the
std::equal of the old operand range against the new one, which under the
operand-count invariant is list equality. -/
def matchAndRewrite (map : AffineMap) (operands : List Val) :
    Option (AffineMap × List Val) :=
  let r := composeAffineMapAndOperands map operands
  if r.1 = map ∧ r.2 = operands then none else some r

/-- Is the value a loop induction variable (block argument of an
affine.for). -/
def Val.isInductionVar : Val → Bool
  | .forArg _ _ => true
  | _ => false

/-- Is the value an operation result whose defining operation sits at the
top level (in a function region). -/
def Val.definingOpTopLevel : Val → Bool
  | .constantRes _ _ inFunc _ => inFunc
  | .applyRes _ _ inFunc _ _ => inFunc
  | .dimRes _ _ inFunc _ _ => inFunc
  | .otherRes _ _ inFunc => inFunc
  | _ => false

/-- Is the value an affine.apply result all of whose operands are valid
dimensions. -/
def Val.applyWithAllValidDims : Val → Bool
  | .applyRes _ _ _ _ ops => allValidDims ops
  | _ => false

/-- Is the value the result of a dim operation whose memref operand is a
top-level value. -/
def Val.dimOpWithTopLevelMemref : Val → Bool
  | .dimRes _ _ _ memrefTopLevel _ => memrefTopLevel
  | _ => false

/-- The disjunction the claim offers for isValidDim, written from its text:
integer/index type and (defined at the enclosing top level, or a
compile-time constant, or an affine.apply composition whose operands are all
valid dimensions, or a loop induction variable, or a value whose defining
computation is itself top level). -/
def claimValidDim (v : Val) : Bool :=
  v.isIndexType &&
    (isTopLevelValue v || (v.getConstant).isSome || v.applyWithAllValidDims ||
      v.isInductionVar || v.definingOpTopLevel)

/-- The statement of the fold claim over the map's single result expression:
a bare dimension reference selects the operand at its position, a bare
symbol reference the operand at dimension count plus its position, neither
consulting the operand constants; any other single result is attempted with
constantFold, with no result on failure. -/
def affineApplyFoldSpec (map : AffineMap) (operands : List Val)
    (operandConstants : List (Option Int)) : Option OpFoldResult :=
  match map.results with
  | [e] =>
      match e with
      | .dim p => some (.value (operands.getD p (.otherArg 0 false)))
      | .symbol p => some (.value (operands.getD (map.numDims + p) (.otherArg 0 false)))
      | _ => (map.constantFold operandConstants).map (fun rs => OpFoldResult.attr (rs.getD 0 0))
  | _ => none

/-- Deduplication by identity keeping first occurrences, appended onto an
accumulator: the contents of the reorderedDims list after renumberOneDim has
run over a list of operands. -/
def dedupAppend (acc : List Val) : List Val → List Val
  | [] => acc
  | v :: vs => if v ∈ acc then dedupAppend acc vs else dedupAppend (acc ++ [v]) vs

/-- The total operand weight held in a normalizer state: the weight of the
reordered dimension operands plus the weight of the concatenated symbol
operands; the measure of the state as an operand list. -/
def NState.weight (st : NState) : Nat :=
  Val.wList st.reorderedDims + Val.wList st.concatenatedSymbols

/-- posOf succeeds exactly on the members of the list. -/
theorem posOf_isSome_iff_mem (v : Val) : ∀ l : List Val, (posOf v l).isSome ↔ v ∈ l := by
  intro l
  induction l with
  | nil => simp [posOf]
  | cons w ws ih =>
    by_cases h : w = v
    · subst h
      simp [posOf]
    · simp only [posOf, if_neg h, List.mem_cons]
      cases hp : posOf v ws <;> simp [hp] at ih ⊢ <;> tauto

/-- An existing position survives appending on the right. -/
theorem posOf_append_right (v : Val) :
    ∀ (l : List Val) (p : Nat) (l' : List Val), posOf v l = some p → posOf v (l ++ l') = some p := by
  intro l
  induction l with
  | nil =>
    intro p l' h
    simp [posOf] at h
  | cons w ws ih =>
    intro p l' h
    by_cases hw : w = v
    · subst hw
      simp [posOf] at h ⊢
      exact h
    · simp only [posOf, if_neg hw, Option.map_eq_some'] at h
      obtain ⟨q, hq, hpq⟩ := h
      have hstep : (w :: ws) ++ l' = w :: (ws ++ l') := rfl
      rw [hstep]
      simp only [posOf, if_neg hw, ih q l' hq, Option.map_some']
      rw [hpq]

/-- A fresh element appended at the end sits at the old length. -/
theorem posOf_append_self (v : Val) :
    ∀ l : List Val, v ∉ l → posOf v (l ++ [v]) = some l.length := by
  intro l
  induction l with
  | nil => simp [posOf]
  | cons w ws ih =>
    intro h
    have hw : w ≠ v := fun e => h (e ▸ List.mem_cons_self w ws)
    have hv : v ∉ ws := fun e => h (List.mem_cons_of_mem w e)
    have hstep : (w :: ws) ++ [v] = w :: (ws ++ [v]) := rfl
    rw [hstep]
    simp only [posOf, if_neg hw, ih hv, Option.map_some', List.length_cons]

/-- The fundamental substitution lemma: evaluating a substituted expression
is evaluating the original in the environment where each dimension and
symbol position receives the value of its replacement. -/
theorem eval_replaceDimsAndSymbols (D S D' S' : List Int) (dR sR : List AffineExpr) :
    ∀ e : AffineExpr,
      (∀ p, e.usesDim p = true → (dR.getD p (.dim p)).eval D S = D'.getD p 0) →
      (∀ p, e.usesSymbol p = true → (sR.getD p (.symbol p)).eval D S = S'.getD p 0) →
      (e.replaceDimsAndSymbols dR sR).eval D S = e.eval D' S' := by
  intro e
  induction e with
  | dim p =>
    intro hD _
    have := hD p (by simp [AffineExpr.usesDim])
    simpa [AffineExpr.replaceDimsAndSymbols, AffineExpr.eval] using this
  | symbol p =>
    intro _ hS
    have := hS p (by simp [AffineExpr.usesSymbol])
    simpa [AffineExpr.replaceDimsAndSymbols, AffineExpr.eval] using this
  | constant c =>
    intro _ _
    simp [AffineExpr.replaceDimsAndSymbols, AffineExpr.eval]
  | add l r ihl ihr =>
    intro hD hS
    simp only [AffineExpr.replaceDimsAndSymbols, AffineExpr.eval]
    rw [ihl (fun p hp => hD p (by simp [AffineExpr.usesDim, hp]))
          (fun p hp => hS p (by simp [AffineExpr.usesSymbol, hp])),
        ihr (fun p hp => hD p (by simp [AffineExpr.usesDim, hp]))
          (fun p hp => hS p (by simp [AffineExpr.usesSymbol, hp]))]
  | mul l r ihl ihr =>
    intro hD hS
    simp only [AffineExpr.replaceDimsAndSymbols, AffineExpr.eval]
    rw [ihl (fun p hp => hD p (by simp [AffineExpr.usesDim, hp]))
          (fun p hp => hS p (by simp [AffineExpr.usesSymbol, hp])),
        ihr (fun p hp => hD p (by simp [AffineExpr.usesDim, hp]))
          (fun p hp => hS p (by simp [AffineExpr.usesSymbol, hp]))]
  | floorDiv l r ihl ihr =>
    intro hD hS
    simp only [AffineExpr.replaceDimsAndSymbols, AffineExpr.eval]
    rw [ihl (fun p hp => hD p (by simp [AffineExpr.usesDim, hp]))
          (fun p hp => hS p (by simp [AffineExpr.usesSymbol, hp])),
        ihr (fun p hp => hD p (by simp [AffineExpr.usesDim, hp]))
          (fun p hp => hS p (by simp [AffineExpr.usesSymbol, hp]))]
  | ceilDiv l r ihl ihr =>
    intro hD hS
    simp only [AffineExpr.replaceDimsAndSymbols, AffineExpr.eval]
    rw [ihl (fun p hp => hD p (by simp [AffineExpr.usesDim, hp]))
          (fun p hp => hS p (by simp [AffineExpr.usesSymbol, hp])),
        ihr (fun p hp => hD p (by simp [AffineExpr.usesDim, hp]))
          (fun p hp => hS p (by simp [AffineExpr.usesSymbol, hp]))]
  | mod l r ihl ihr =>
    intro hD hS
    simp only [AffineExpr.replaceDimsAndSymbols, AffineExpr.eval]
    rw [ihl (fun p hp => hD p (by simp [AffineExpr.usesDim, hp]))
          (fun p hp => hS p (by simp [AffineExpr.usesSymbol, hp])),
        ihr (fun p hp => hD p (by simp [AffineExpr.usesDim, hp]))
          (fun p hp => hS p (by simp [AffineExpr.usesSymbol, hp]))]

/-- getD over a map of the range with the matching default is the function
itself, inside or outside the range. -/
theorem getD_map_range (f : Nat → AffineExpr) (n q : Nat) :
    ((List.range n).map f).getD q (f q) = f q := by
  rcases lt_or_ge q n with h | h
  · rw [List.getD_eq_getElem _ _ (by simpa using h)]
    simp
  · rw [List.getD_eq_default _ _ (by simpa using h)]

/-- A dimension reference used by an expression is below its dimsBelow
bound. -/
theorem usesDim_lt_of_dimsBelow :
    ∀ (e : AffineExpr) (n : Nat), e.dimsBelow n = true →
      ∀ p, e.usesDim p = true → p < n := by
  intro e
  induction e <;> intro n hb p hu <;>
    simp [AffineExpr.dimsBelow, AffineExpr.usesDim] at hb hu <;> try tauto
  omega

/-- A symbol reference used by an expression is below its symsBelow
bound. -/
theorem usesSymbol_lt_of_symsBelow :
    ∀ (e : AffineExpr) (n : Nat), e.symsBelow n = true →
      ∀ p, e.usesSymbol p = true → p < n := by
  intro e
  induction e <;> intro n hb p hu <;>
    simp [AffineExpr.symsBelow, AffineExpr.usesSymbol] at hb hu <;> try tauto
  omega

/-- C7: the arity contract and the mathematical function computed by
AffineMap::compose. For maps a and b with a.dimCount equal to b's result
count (and well-formed references), a.compose(b) has exactly b's dimension
count, the symbol count a.symbolCount + b.symbolCount, one result per
result of a, and computes a after substituting b's results for a's
dimension references: a's symbols read the first symbol section and b's
renumbered symbols read the section appended after it. -/
theorem C7_compose_arity_contract :
    ∀ (a b : AffineMap) (dimVals symsA symsB : List Int),
      a.numDims = b.numResults → a.wf = true → b.wf = true →
      dimVals.length = b.numDims → symsA.length = a.numSymbols →
      (a.compose b).numDims = b.numDims ∧
      (a.compose b).numSymbols = a.numSymbols + b.numSymbols ∧
      (a.compose b).numResults = a.numResults ∧
      (a.compose b).evalMap (dimVals ++ (symsA ++ symsB)) =
        a.evalMap (b.evalMap (dimVals ++ symsB) ++ symsA) := by
  intro a b dimVals symsA symsB hcomp hwa hwb hd hsa
  refine ⟨rfl, rfl, by simp [AffineMap.compose, AffineMap.numResults], ?_⟩
  have hwa' : ∀ e ∈ a.results, e.dimsBelow a.numDims = true ∧ e.symsBelow a.numSymbols = true := by
    intro e he
    have := (List.all_eq_true.mp hwa) e he
    simpa [Bool.and_eq_true] using this
  have hwb' : ∀ e ∈ b.results, e.dimsBelow b.numDims = true ∧ e.symsBelow b.numSymbols = true := by
    intro e he
    have := (List.all_eq_true.mp hwb) e he
    simpa [Bool.and_eq_true] using this
  set evB := b.evalMap (dimVals ++ symsB) with hevB
  have hlenB : evB.length = b.results.length := by
    simp [hevB, AffineMap.evalMap]
  have hinner : ∀ e ∈ b.results,
      (e.replaceDimsAndSymbols ((List.range b.numDims).map AffineExpr.dim)
          ((List.range b.numSymbols).map (fun i => AffineExpr.symbol (a.numSymbols + i)))).eval
        dimVals (symsA ++ symsB) = e.eval dimVals symsB := by
    intro e he
    apply eval_replaceDimsAndSymbols
    · intro p _
      rw [getD_map_range]
      rfl
    · intro p hp
      have hplt : p < b.numSymbols :=
        usesSymbol_lt_of_symsBelow e b.numSymbols (hwb' e he).2 p hp
      rw [List.getD_eq_getElem _ _ (by simpa using hplt)]
      simp only [List.getElem_map, List.getElem_range]
      show (symsA ++ symsB).getD (a.numSymbols + p) 0 = symsB.getD p 0
      rw [List.getD_append_right _ _ _ _ (by omega)]
      congr 1
      omega
  show ((a.compose b).results.map _) = _
  have hACompose : (a.compose b).results = a.results.map
      (AffineExpr.replaceDimsAndSymbols
        ((b.replaceDimsAndSymbols ((List.range b.numDims).map AffineExpr.dim)
          ((List.range b.numSymbols).map (fun i => AffineExpr.symbol (a.numSymbols + i)))
          b.numDims (a.numSymbols + b.numSymbols)).results) []) := rfl
  simp only [AffineMap.evalMap, hACompose, List.map_map]
  apply List.map_congr_left
  intro e he
  simp only [Function.comp_apply]
  have ht1 : (dimVals ++ (symsA ++ symsB)).take (a.compose b).numDims = dimVals := by
    have : (a.compose b).numDims = dimVals.length := by rw [hd]; rfl
    rw [this, List.take_left]
  have ht2 : (dimVals ++ (symsA ++ symsB)).drop (a.compose b).numDims = symsA ++ symsB := by
    have : (a.compose b).numDims = dimVals.length := by rw [hd]; rfl
    rw [this, List.drop_left]
  have ht3 : (evB ++ symsA).take a.numDims = evB := by
    have : a.numDims = evB.length := by
      rw [hlenB, hcomp]; rfl
    rw [this, List.take_left]
  have ht4 : (evB ++ symsA).drop a.numDims = symsA := by
    have : a.numDims = evB.length := by
      rw [hlenB, hcomp]; rfl
    rw [this, List.drop_left]
  rw [ht1, ht2, ht3, ht4]
  apply eval_replaceDimsAndSymbols
  · intro p hp
    have hplt : p < b.results.length := by
      have h1 := usesDim_lt_of_dimsBelow e a.numDims (hwa' e he).1 p hp
      have h2 : b.numResults = b.results.length := rfl
      omega
    rw [List.getD_eq_getElem _ _ (by
      simpa [AffineMap.replaceDimsAndSymbols] using hplt)]
    have hgetB : evB.getD p 0 =
        (b.results.get ⟨p, hplt⟩).eval dimVals symsB := by
      rw [hevB]
      rw [List.getD_eq_getElem _ _ (by simpa [AffineMap.evalMap] using hplt)]
      simp only [AffineMap.evalMap, List.getElem_map, List.get_eq_getElem]
      congr 1
      · rw [show b.numDims = dimVals.length from hd.symm, List.take_left]
      · rw [show b.numDims = dimVals.length from hd.symm, List.drop_left]
    rw [hgetB]
    simp only [AffineMap.replaceDimsAndSymbols, List.getElem_map, List.get_eq_getElem]
    exact hinner _ (List.getElem_mem hplt)
  · intro p hp
    have hplt : p < a.numSymbols :=
      usesSymbol_lt_of_symsBelow e a.numSymbols (hwa' e he).2 p hp
    show (symsA ++ symsB).getD p 0 = symsA.getD p 0
    rw [List.getD_append _ _ _ _ (by omega)]

/-- Witness for C7 at concrete maps: a has two dimensions, two symbols and
results (d0 + s1, d1 + s0); b has one dimension, one symbol and results
(d0 + s0, d0 * s0), so a composes with b; evaluated at dimension value 5,
a-symbols 7 and 9, b-symbol 11. -/
theorem C7_compose_arity_contract_witness :
    (AffineMap.compose ⟨2, 2, [.add (.dim 0) (.symbol 1), .add (.dim 1) (.symbol 0)]⟩
        ⟨1, 1, [.add (.dim 0) (.symbol 0), .mul (.dim 0) (.symbol 0)]⟩).numDims = 1 ∧
    (AffineMap.compose ⟨2, 2, [.add (.dim 0) (.symbol 1), .add (.dim 1) (.symbol 0)]⟩
        ⟨1, 1, [.add (.dim 0) (.symbol 0), .mul (.dim 0) (.symbol 0)]⟩).numSymbols = 2 + 1 ∧
    (AffineMap.compose ⟨2, 2, [.add (.dim 0) (.symbol 1), .add (.dim 1) (.symbol 0)]⟩
        ⟨1, 1, [.add (.dim 0) (.symbol 0), .mul (.dim 0) (.symbol 0)]⟩).numResults =
      AffineMap.numResults ⟨2, 2, [.add (.dim 0) (.symbol 1), .add (.dim 1) (.symbol 0)]⟩ ∧
    (AffineMap.compose ⟨2, 2, [.add (.dim 0) (.symbol 1), .add (.dim 1) (.symbol 0)]⟩
          ⟨1, 1, [.add (.dim 0) (.symbol 0), .mul (.dim 0) (.symbol 0)]⟩).evalMap
        ([5] ++ ([7, 9] ++ [11])) =
      AffineMap.evalMap ⟨2, 2, [.add (.dim 0) (.symbol 1), .add (.dim 1) (.symbol 0)]⟩
        (AffineMap.evalMap ⟨1, 1, [.add (.dim 0) (.symbol 0), .mul (.dim 0) (.symbol 0)]⟩
            ([5] ++ [11]) ++ [7, 9]) :=
  C7_compose_arity_contract
    ⟨2, 2, [.add (.dim 0) (.symbol 1), .add (.dim 1) (.symbol 0)]⟩
    ⟨1, 1, [.add (.dim 0) (.symbol 0), .mul (.dim 0) (.symbol 0)]⟩
    [5] [7, 9] [11] rfl rfl rfl rfl rfl

/-- An established position also holds in the deduplicated extension of the
accumulator. -/
theorem posOf_dedupAppend (v : Val) (p : Nat) :
    ∀ (l acc : List Val), posOf v acc = some p → posOf v (dedupAppend acc l) = some p := by
  intro l
  induction l with
  | nil =>
    intro acc h
    simpa [dedupAppend] using h
  | cons w ws ih =>
    intro acc h
    by_cases hw : w ∈ acc
    · simpa [dedupAppend, hw] using ih acc h
    · simp only [dedupAppend, if_neg hw]
      exact ih (acc ++ [w]) (posOf_append_right v acc p [w] h)

/-- renumberOneDim leaves the concatenated symbols untouched. -/
theorem renumberOneDim_concat (st : NState) (v : Val) :
    (st.renumberOneDim v).1.concatenatedSymbols = st.concatenatedSymbols := by
  unfold NState.renumberOneDim
  cases posOf v st.reorderedDims <;> rfl

/-- What the renumbering loop computes: the reordered dimension operands are
the first-occurrence deduplication of the processed list appended to the
accumulator state, the concatenated symbols are untouched, and each operand
is mapped to the dimension expression of its first position in the final
reordered list. -/
theorem renumberDims_spec :
    ∀ (l : List Val) (st : NState),
      (renumberDims st l).1.reorderedDims = dedupAppend st.reorderedDims l ∧
      (renumberDims st l).1.concatenatedSymbols = st.concatenatedSymbols ∧
      (renumberDims st l).2 = l.map
        (fun v => AffineExpr.dim ((posOf v (dedupAppend st.reorderedDims l)).getD 0)) := by
  intro l
  induction l with
  | nil =>
    intro st
    exact ⟨rfl, rfl, rfl⟩
  | cons v vs ih =>
    intro st
    by_cases hv : (posOf v st.reorderedDims).isSome
    · obtain ⟨p, hp⟩ := Option.isSome_iff_exists.mp hv
      have hmem : v ∈ st.reorderedDims := (posOf_isSome_iff_mem v _).mp hv
      have hstep : st.renumberOneDim v = (st, .dim p) := by
        unfold NState.renumberOneDim
        rw [hp]
      have hded : dedupAppend st.reorderedDims (v :: vs) = dedupAppend st.reorderedDims vs := by
        simp [dedupAppend, hmem]
      refine ⟨?_, ?_, ?_⟩
      · simp only [renumberDims, hstep, hded]
        exact (ih st).1
      · simp only [renumberDims, hstep]
        exact (ih st).2.1
      · simp only [renumberDims, hstep, hded, List.map_cons]
        rw [(ih st).2.2]
        rw [posOf_dedupAppend v p vs st.reorderedDims hp]
        rfl
    · have hmem : v ∉ st.reorderedDims := by
        intro hc
        exact hv ((posOf_isSome_iff_mem v _).mpr hc)
      have hnone : posOf v st.reorderedDims = none := Option.not_isSome_iff_eq_none.mp hv
      have hstep : st.renumberOneDim v =
          (⟨st.reorderedDims ++ [v], st.concatenatedSymbols⟩, .dim st.reorderedDims.length) := by
        unfold NState.renumberOneDim
        rw [hnone]
      have hded : dedupAppend st.reorderedDims (v :: vs) =
          dedupAppend (st.reorderedDims ++ [v]) vs := by
        simp [dedupAppend, hmem]
      set st' : NState := ⟨st.reorderedDims ++ [v], st.concatenatedSymbols⟩ with hst'
      refine ⟨?_, ?_, ?_⟩
      · simp only [renumberDims, hstep, hded]
        exact (ih st').1
      · simp only [renumberDims, hstep]
        exact (ih st').2.1
      · simp only [renumberDims, hstep, hded, List.map_cons]
        rw [(ih st').2.2]
        have hself : posOf v (st.reorderedDims ++ [v]) = some st.reorderedDims.length :=
          posOf_append_self v st.reorderedDims hmem
        rw [posOf_dedupAppend v st.reorderedDims.length vs _ hself]
        rfl

/-- The depth-exhausted operand loop dispatches purely positionally: the
first rewrittenNumDims positions (relative to the running index) are
renumbered through renumberOneDim and produce the auxiliary dimension
expressions, all later positions are appended to the concatenated symbols
verbatim, and no recursion happens. -/
theorem normGo_depth_exhausted :
    ∀ (depth numDimsBeforeRewrite rewrittenNumDims : Nat) (ops : List Val) (i : Nat)
      (st : NState),
      normGo depth false numDimsBeforeRewrite rewrittenNumDims i ops st =
        (⟨(renumberDims st (ops.take (rewrittenNumDims - i))).1.reorderedDims,
          st.concatenatedSymbols ++ ops.drop (rewrittenNumDims - i)⟩,
         (renumberDims st (ops.take (rewrittenNumDims - i))).2) := by
  intro depth nb rd ops
  induction ops with
  | nil =>
    intro i st
    simp [normGo, renumberDims]
  | cons t rest ih =>
    intro i st
    by_cases hi : i < rd
    · have htake : rd - i = (rd - (i + 1)) + 1 := by omega
      cases t <;>
        (simp only [normGo, if_neg (Bool.false_ne_true), if_pos hi, htake,
           List.take_succ_cons, List.drop_succ_cons, renumberDims]
         rw [ih (i + 1) _, renumberOneDim_concat])
    · have htake : rd - i = 0 := by omega
      have h1 : rd - (i + 1) = 0 := by omega
      cases t <;>
        (simp only [normGo, if_neg (Bool.false_ne_true), if_neg hi, htake, List.take_zero,
           List.drop_zero, renumberDims]
         rw [ih (i + 1) _]
         simp [h1, renumberDims, List.append_assoc])

/-- C8: recursion-depth exhaustion is not a failure. When the call depth
exceeds kMaxAffineApplyDepth, the constructor produces a result without
recursing into producer operations: every operand in a dimension position
of the (symbol-promoted) map is assigned a renumbered dimension position
deduplicated by operand identity — the auxiliary expression of each such
operand is the dimension at its first position in the deduplicated list, so
a repeated value reuses its position — and every symbol-position operand is
appended to the concatenated symbols verbatim, without deduplication. -/
theorem C8_depth_exhaustion_policy (depth : Nat) (map : AffineMap) (operands : List Val)
    (h : kMaxAffineApplyDepth < depth) :
    (applyNormalizer depth map operands).1.reorderedDims =
      dedupAppend []
        (operands.take (promoteComposedSymbolsAsDims map (operands.drop map.numDims)).numDims) ∧
    (applyNormalizer depth map operands).1.concatenatedSymbols =
      operands.drop (promoteComposedSymbolsAsDims map (operands.drop map.numDims)).numDims ∧
    (normGo depth false map.numDims
        (promoteComposedSymbolsAsDims map (operands.drop map.numDims)).numDims 0 operands
        ⟨[], []⟩).2 =
      (operands.take (promoteComposedSymbolsAsDims map (operands.drop map.numDims)).numDims).map
        (fun v => AffineExpr.dim ((posOf v
          (dedupAppend []
            (operands.take
              (promoteComposedSymbolsAsDims map (operands.drop map.numDims)).numDims))).getD 0)) := by
  have hfc : decide (depth ≤ kMaxAffineApplyDepth) = false :=
    decide_eq_false (by omega)
  have hgo := normGo_depth_exhausted depth map.numDims
      (promoteComposedSymbolsAsDims map (operands.drop map.numDims)).numDims operands 0 ⟨[], []⟩
  have hspec := renumberDims_spec
      (operands.take ((promoteComposedSymbolsAsDims map (operands.drop map.numDims)).numDims - 0))
      ⟨[], []⟩
  refine ⟨?_, ?_, ?_⟩
  · simp only [applyNormalizer, hfc, hgo]
    simpa using hspec.1
  · simp only [applyNormalizer, hfc, hgo]
    simp
  · rw [hgo]
    simpa using hspec.2.2

/-- Witness for C8 at depth two (exceeding the bound, which is one): the map
(d0)[s0] -> (d0 + s0) with a loop induction variable in the dimension
position and a top-level value in the symbol position; no symbol comes from
an affine.apply, so the promoted map is the input map, the dimension operand
is renumbered to position zero and the symbol operand is appended
verbatim. -/
theorem C8_depth_exhaustion_policy_witness :
    (applyNormalizer 2 ⟨1, 1, [.add (.dim 0) (.symbol 0)]⟩
        [.forArg 0 true, .funcArg 1 true]).1.reorderedDims =
      dedupAppend []
        (List.take
          (promoteComposedSymbolsAsDims ⟨1, 1, [.add (.dim 0) (.symbol 0)]⟩
            (List.drop (AffineMap.numDims ⟨1, 1, [.add (.dim 0) (.symbol 0)]⟩)
              [.forArg 0 true, .funcArg 1 true])).numDims
          [.forArg 0 true, .funcArg 1 true]) ∧
    (applyNormalizer 2 ⟨1, 1, [.add (.dim 0) (.symbol 0)]⟩
        [.forArg 0 true, .funcArg 1 true]).1.concatenatedSymbols =
      List.drop
        (promoteComposedSymbolsAsDims ⟨1, 1, [.add (.dim 0) (.symbol 0)]⟩
          (List.drop (AffineMap.numDims ⟨1, 1, [.add (.dim 0) (.symbol 0)]⟩)
            [.forArg 0 true, .funcArg 1 true])).numDims
        [.forArg 0 true, .funcArg 1 true] ∧
    (normGo 2 false (AffineMap.numDims ⟨1, 1, [.add (.dim 0) (.symbol 0)]⟩)
        (promoteComposedSymbolsAsDims ⟨1, 1, [.add (.dim 0) (.symbol 0)]⟩
          (List.drop (AffineMap.numDims ⟨1, 1, [.add (.dim 0) (.symbol 0)]⟩)
            [.forArg 0 true, .funcArg 1 true])).numDims 0
        [.forArg 0 true, .funcArg 1 true] ⟨[], []⟩).2 =
      (List.take
          (promoteComposedSymbolsAsDims ⟨1, 1, [.add (.dim 0) (.symbol 0)]⟩
            (List.drop (AffineMap.numDims ⟨1, 1, [.add (.dim 0) (.symbol 0)]⟩)
              [.forArg 0 true, .funcArg 1 true])).numDims
          [.forArg 0 true, .funcArg 1 true]).map
        (fun v => AffineExpr.dim ((posOf v
          (dedupAppend []
            (List.take
              (promoteComposedSymbolsAsDims ⟨1, 1, [.add (.dim 0) (.symbol 0)]⟩
                (List.drop (AffineMap.numDims ⟨1, 1, [.add (.dim 0) (.symbol 0)]⟩)
                  [.forArg 0 true, .funcArg 1 true])).numDims
              [.forArg 0 true, .funcArg 1 true]))).getD 0)) :=
  C8_depth_exhaustion_policy 2 ⟨1, 1, [.add (.dim 0) (.symbol 0)]⟩
    [.forArg 0 true, .funcArg 1 true] (by decide)

/-- C1 (code bug): semantic preservation of composeAffineMapAndOperands
fails on this input. The outer pair is the identity map (d0) applied to one
operand A, where A is an affine.apply of the map with no dimensions, two
symbols and the single result s1, applied to a non-producer value (id 11)
and a producer value (an affine.apply of s0 to the value with id 10); every
operand is a valid symbol, so the assertions of the source hold on this
input. Under the assignment sending each identity to itself, the original
pair evaluates to the value of the producer operand, 10, but the composed
pair evaluates to 11: the depth-exhausted branch of the Normalizer
dispatches operands positionally against the promoted map's dimension
count, binding the promoted dimension (which stands for the apply-produced
symbol operand) to the wrong operand. -/
theorem C1_compose_semantic_preservation_failing_eval :
    composeAffineMapAndOperands ⟨1, 0, [.dim 0]⟩
        [.applyRes 2 true false ⟨0, 2, [.symbol 1]⟩
          [.funcArg 11 true, .applyRes 1 true false ⟨0, 1, [.symbol 0]⟩ [.funcArg 10 true]]] =
      (⟨0, 1, [.symbol 0]⟩, [.funcArg 11 true]) ∧
    AffineMap.evalMap ⟨0, 1, [.symbol 0]⟩
        (Val.evalList (fun n => (n : Int)) [.funcArg 11 true]) = [11] ∧
    AffineMap.evalMap ⟨1, 0, [.dim 0]⟩
        (Val.evalList (fun n => (n : Int))
          [.applyRes 2 true false ⟨0, 2, [.symbol 1]⟩
            [.funcArg 11 true, .applyRes 1 true false ⟨0, 1, [.symbol 0]⟩ [.funcArg 10 true]]]) =
      [10] ∧
    isValidSymbol
        (.applyRes 2 true false ⟨0, 2, [.symbol 1]⟩
          [.funcArg 11 true, .applyRes 1 true false ⟨0, 1, [.symbol 0]⟩ [.funcArg 10 true]]) =
      true := by
  refine ⟨?_, rfl, rfl, rfl⟩
  simp [composeAffineMapAndOperands, applyNormalizer, normGo, normalizerResult,
    promoteComposedSymbolsAsDims, NState.renumberOneDim, NState.renumber, renumberDims, posOf,
    NState.getOperands, canonicalizeMapAndOperands, canonicalizeMapOrSetAndOperands,
    canonicalizePromotedSymbols, promoSplit, canonDims, canonSyms, isValidSymbol, allValidSymbols,
    AffineMap.replaceDimsAndSymbols, AffineExpr.replaceDimsAndSymbols, AffineMap.compose,
    simplifyAffineMap, AffineExpr.simplifyExpr, AffineMap.usesDim, AffineMap.usesSymbol,
    AffineExpr.usesDim, AffineExpr.usesSymbol, Val.definedByApply, Val.getConstant,
    kMaxAffineApplyDepth, List.range_succ]

/-- C3 (counterexample): the claim's characterization of isValidDim misses
the dim-operation case. The result of a dim operation that is not itself at
top level but whose memref operand is top level (index type, id 0) is a
valid dim in the source, while every disjunct of the claim is false on
it. -/
theorem C3_isValidDim_claim_counterexample :
    isValidDim (Val.dimRes 0 true false true false) = true ∧
    claimValidDim (Val.dimRes 0 true false true false) = false :=
  ⟨rfl, rfl⟩

/-- C3 (amended): isValidDim returns true exactly on the claim's disjunction
extended with one more case, a dim operation whose memref operand is a
top-level value: index type and (top level, or compile-time constant, or
affine.apply with all operands valid dims, or loop induction variable, or
defining operation top level, or dim operation over a top-level memref) —
and no other case returns true. -/
theorem C3_isValidDim_characterization_amended :
    ∀ v : Val,
      isValidDim v = (claimValidDim v || (v.isIndexType && v.dimOpWithTopLevelMemref)) := by
  intro v
  cases v <;>
    simp [isValidDim, claimValidDim, Val.isIndexType, isTopLevelValue, Val.getConstant,
      Val.applyWithAllValidDims, Val.isInductionVar, Val.definingOpTopLevel,
      Val.dimOpWithTopLevelMemref, Bool.or_comm, Bool.or_assoc, Bool.or_left_comm,
      Bool.and_or_distrib_left]

/-- C9: the simplification pattern reports a successful match exactly when
running the Normalizer and the Canonicalizer changes the map (by identity)
or the operand list (by content); on success the operation is replaced by
the composed pair, on failure nothing changes. -/
theorem C9_rewrite_rule_contract :
    ∀ (map : AffineMap) (operands : List Val),
      (matchAndRewrite map operands = none ↔
        composeAffineMapAndOperands map operands = (map, operands)) ∧
      (∀ m' o', matchAndRewrite map operands = some (m', o') →
        (m', o') = composeAffineMapAndOperands map operands ∧
          ¬(m' = map ∧ o' = operands)) := by
  intro map operands
  unfold matchAndRewrite
  by_cases h : (composeAffineMapAndOperands map operands).1 = map ∧
      (composeAffineMapAndOperands map operands).2 = operands
  · rw [if_pos h]
    refine ⟨⟨fun _ => Prod.ext h.1 h.2, fun _ => rfl⟩, ?_⟩
    intro m' o' hmr
    exact absurd hmr (by simp)
  · rw [if_neg h]
    refine ⟨⟨fun hc => absurd hc (by simp), fun hc => ?_⟩, ?_⟩
    · exact absurd ⟨by rw [hc], by rw [hc]⟩ h
    · intro m' o' hmr
      have h1 : m' = (composeAffineMapAndOperands map operands).1 ∧
          o' = (composeAffineMapAndOperands map operands).2 := by
        have hthis : composeAffineMapAndOperands map operands = (m', o') := by
          simpa using hmr
        exact ⟨by rw [hthis], by rw [hthis]⟩
      refine ⟨Prod.ext h1.1.symm.symm h1.2.symm.symm, fun hc => h ?_⟩
      exact ⟨h1.1 ▸ hc.1, h1.2 ▸ hc.2⟩

/-- Witness for C9 at a concrete input on which the pattern matches: the map
(d0) -> (3) with one loop-induction-variable operand canonicalizes to
() -> (3) with no operands, a change, so matchAndRewrite succeeds and
returns the composed pair. -/
theorem C9_rewrite_rule_contract_witness :
    ((⟨0, 0, [.constant 3]⟩, []) : AffineMap × List Val) =
      composeAffineMapAndOperands ⟨1, 0, [.constant 3]⟩ [.forArg 0 true] ∧
    ¬((⟨0, 0, [.constant 3]⟩ : AffineMap) = ⟨1, 0, [.constant 3]⟩ ∧
        ([] : List Val) = [.forArg 0 true]) := by
  have h : matchAndRewrite ⟨1, 0, [.constant 3]⟩ [.forArg 0 true] =
      some (⟨0, 0, [.constant 3]⟩, []) := by
    simp [matchAndRewrite, composeAffineMapAndOperands, applyNormalizer, normGo, normalizerResult,
      promoteComposedSymbolsAsDims, NState.renumberOneDim, NState.renumber, renumberDims, posOf,
      NState.getOperands, canonicalizeMapAndOperands, canonicalizeMapOrSetAndOperands,
      canonicalizePromotedSymbols, promoSplit, canonDims, canonSyms, isValidSymbol,
      AffineMap.replaceDimsAndSymbols, AffineExpr.replaceDimsAndSymbols, AffineMap.compose,
      simplifyAffineMap, AffineExpr.simplifyExpr, AffineMap.usesDim, AffineMap.usesSymbol,
      AffineExpr.usesDim, AffineExpr.usesSymbol, Val.definedByApply, Val.getConstant,
      kMaxAffineApplyDepth, List.range_succ]
  exact (C9_rewrite_rule_contract ⟨1, 0, [.constant 3]⟩ [.forArg 0 true]).2 _ _ h

/-- A match on an optional list of fold results against Option.map of the
same branch body; closes the non-bare cases of the fold claim. -/
theorem optionMatchEqMap (f : List Int → OpFoldResult) (X : Option (List Int)) :
    (match X with | some rs => some (f rs) | none => none) = Option.map f X := by
  cases X <;> rfl

/-- C10: for an affine.apply whose map carries a single result expression,
fold returns the operand at the referenced position when that expression is
a bare dimension or bare symbol reference, for every operand-constant list
(no constant folding is attempted); only otherwise does it attempt
constantFold, with no result on failure. -/
theorem C10_fold_shortcut (map : AffineMap) (operands : List Val)
    (operandConstants : List (Option Int)) (e : AffineExpr) (h : map.results = [e]) :
    affineApplyFold map operands operandConstants =
      affineApplyFoldSpec map operands operandConstants := by
  obtain ⟨nd, ns, rs⟩ := map
  simp only at h
  subst h
  cases e <;>
    first
    | rfl
    | exact optionMatchEqMap _ _

/-- Witness for C10 at a concrete input: the single result is the bare
dimension reference d0, so fold returns operand 0 even though the operand
constants would fold to 5. -/
theorem C10_fold_shortcut_witness :
    affineApplyFold ⟨1, 0, [.dim 0]⟩ [.funcArg 7 true] [some 5] =
      affineApplyFoldSpec ⟨1, 0, [.dim 0]⟩ [.funcArg 7 true] [some 5] ∧
    affineApplyFold ⟨1, 0, [.dim 0]⟩ [.funcArg 7 true] [some 5] =
      some (.value (.funcArg 7 true)) :=
  ⟨C10_fold_shortcut ⟨1, 0, [.dim 0]⟩ [.funcArg 7 true] [some 5] (.dim 0) rfl, rfl⟩

/-- Every value has positive weight. -/
theorem Val.w_pos : ∀ v : Val, 1 ≤ Val.w v := by
  intro v
  cases v <;> simp [Val.w]

/-- Weight of an appended list. -/
theorem Val.wList_append : ∀ l l' : List Val, Val.wList (l ++ l') = Val.wList l + Val.wList l' := by
  intro l l'
  induction l with
  | nil => simp [Val.wList]
  | cons v vs ih =>
    have : (v :: vs) ++ l' = v :: (vs ++ l') := rfl
    rw [this]
    simp only [Val.wList, ih]
    omega

/-- Counting a predicate and its negation partitions the length. -/
theorem countP_not_add (p : Val → Bool) :
    ∀ l : List Val, l.countP p + l.countP (fun v => !p v) = l.length := by
  intro l
  induction l with
  | nil => simp
  | cons v vs ih =>
    by_cases h : p v = true <;> simp [List.countP_cons, h] <;> omega

/-- The counts of the symbol-promoted map: under the operand-count contract
its symbol count is the number of symbol operands that do not come from an
affine.apply, and the promotion preserves the total input count. -/
theorem promote_counts (map : AffineMap) (symbols : List Val)
    (hlen : symbols.length = map.numSymbols) :
    (promoteComposedSymbolsAsDims map symbols).numSymbols =
      symbols.countP (fun v => !v.definedByApply) ∧
    (promoteComposedSymbolsAsDims map symbols).numDims +
        (promoteComposedSymbolsAsDims map symbols).numSymbols =
      map.numDims + map.numSymbols := by
  have hsplit := countP_not_add (fun v => v.definedByApply) symbols
  unfold promoteComposedSymbolsAsDims
  by_cases h0 : symbols.isEmpty
  · have hnil : symbols = [] := List.isEmpty_iff.mp h0
    subst hnil
    simp only [List.length_nil] at hlen
    rw [if_pos (by simp)]
    simp [List.countP_nil, ← hlen]
  · rw [if_neg h0]
    by_cases h1 : symbols.all (fun v => !v.definedByApply)
    · rw [if_pos h1]
      have hcount : symbols.countP (fun v => !v.definedByApply) = symbols.length :=
        List.countP_eq_length.mpr (fun v hv => (List.all_eq_true.mp h1) v hv)
      rw [hcount, hlen]
      exact ⟨rfl, rfl⟩
    · rw [if_neg h1]
      have hle : symbols.countP (fun v => v.definedByApply) ≤ symbols.length :=
        List.countP_le_length _
      constructor
      · show symbols.length - symbols.countP (fun v => v.definedByApply) = _
        omega
      · show map.numDims + symbols.countP (fun v => v.definedByApply) +
            (symbols.length - symbols.countP (fun v => v.definedByApply)) = _
        omega

/-- renumber appends the inner concatenated symbols to the current ones. -/
theorem renumber_concat (st inner : NState) (innerMap : AffineMap) :
    (st.renumber inner innerMap).1.concatenatedSymbols =
      st.concatenatedSymbols ++ inner.concatenatedSymbols := by
  unfold NState.renumber
  simp only
  rw [(renumberDims_spec inner.reorderedDims st).2.1]

/-- renumber only extends the reordered dimension list. -/
theorem renumber_reordered (st inner : NState) (innerMap : AffineMap) :
    (st.renumber inner innerMap).1.reorderedDims =
      dedupAppend st.reorderedDims inner.reorderedDims := by
  unfold NState.renumber
  simp only
  rw [(renumberDims_spec inner.reorderedDims st).1]

/-- The composing operand loop on a producer operand: construct the
normalizer of the producer one level deeper, renumber it into the current
state, emit its first result as the auxiliary expression and continue. -/
theorem normGo_cons_apply (depth nb rd i : Nat) (idn : Nat) (idx inF : Bool)
    (amap : AffineMap) (aops : List Val) (rest : List Val) (st : NState) :
    normGo depth true nb rd i (Val.applyRes idn idx inF amap aops :: rest) st =
      ((normGo depth true nb rd (i + 1) rest
          (st.renumber (applyNormalizer (depth + 1) amap aops).1
            (applyNormalizer (depth + 1) amap aops).2).1).1,
        ((st.renumber (applyNormalizer (depth + 1) amap aops).1
            (applyNormalizer (depth + 1) amap aops).2).2.results.getD 0 (.constant 0)) ::
          (normGo depth true nb rd (i + 1) rest
            (st.renumber (applyNormalizer (depth + 1) amap aops).1
              (applyNormalizer (depth + 1) amap aops).2).1).2) := by
  rw [normGo]
  rfl

/-- The composing operand loop on a non-producer operand in a dimension
position: renumber it and continue. -/
theorem normGo_cons_dim (depth nb rd i : Nat) (t : Val) (rest : List Val) (st : NState)
    (ht : t.definedByApply = false) (hi : i < nb) :
    normGo depth true nb rd i (t :: rest) st =
      ((normGo depth true nb rd (i + 1) rest (st.renumberOneDim t).1).1,
        (st.renumberOneDim t).2 ::
          (normGo depth true nb rd (i + 1) rest (st.renumberOneDim t).1).2) := by
  cases t
  case applyRes => simp [Val.definedByApply] at ht
  all_goals (rw [normGo]; simp [if_pos hi])
  all_goals (intro a1 a2 a3 a4 a5 hne; exact Val.noConfusion hne)

/-- The composing operand loop on a non-producer operand in a symbol
position: append it to the concatenated symbols verbatim and continue. -/
theorem normGo_cons_sym (depth nb rd i : Nat) (t : Val) (rest : List Val) (st : NState)
    (ht : t.definedByApply = false) (hi : ¬ i < nb) :
    normGo depth true nb rd i (t :: rest) st =
      normGo depth true nb rd (i + 1) rest
        ⟨st.reorderedDims, st.concatenatedSymbols ++ [t]⟩ := by
  cases t
  case applyRes => simp [Val.definedByApply] at ht
  all_goals (rw [normGo]; simp [if_neg hi])
  all_goals (intro a1 a2 a3 a4 a5 hne; exact Val.noConfusion hne)

/-- In the composing branch the concatenated symbols grow by at least one
entry per non-producer operand in a symbol position. -/
theorem normGo_concat_lower (depth nb rd : Nat) :
    ∀ (ops : List Val) (i : Nat) (st : NState),
      st.concatenatedSymbols.length +
          (ops.drop (nb - i)).countP (fun v => !v.definedByApply) ≤
        (normGo depth true nb rd i ops st).1.concatenatedSymbols.length := by
  intro ops
  induction ops with
  | nil =>
    intro i st
    simp [normGo]
  | cons t rest ih =>
    intro i st
    have hdropcount : (nb - i = 0 ∧
          ((t :: rest).drop (nb - i)).countP (fun v => !v.definedByApply) =
            rest.countP (fun v => !v.definedByApply) +
              (if t.definedByApply then 0 else 1)) ∨
        (0 < nb - i ∧
          ((t :: rest).drop (nb - i)).countP (fun v => !v.definedByApply) =
            (rest.drop (nb - (i + 1))).countP (fun v => !v.definedByApply)) := by
      by_cases h : nb - i = 0
      · left
        refine ⟨h, ?_⟩
        rw [h, List.drop_zero, List.countP_cons]
        by_cases ha : t.definedByApply <;> simp [ha]
      · right
        refine ⟨by omega, ?_⟩
        have : nb - i = (nb - (i + 1)) + 1 := by omega
        rw [this, List.drop_succ_cons]
    by_cases ha : t.definedByApply = true
    · obtain ⟨idn, idx, inF, amap, aops, ht⟩ : ∃ idn idx inF amap aops,
          t = Val.applyRes idn idx inF amap aops := by
        cases t <;> simp [Val.definedByApply] at ha ⊢
      subst ht
      rw [normGo_cons_apply]
      dsimp only
      have hst1 := renumber_concat st (applyNormalizer (depth + 1) amap aops).1
        (applyNormalizer (depth + 1) amap aops).2
      have hlen1 : st.concatenatedSymbols.length ≤
          (st.renumber (applyNormalizer (depth + 1) amap aops).1
            (applyNormalizer (depth + 1) amap aops).2).1.concatenatedSymbols.length := by
        rw [hst1]
        simp
      have hrec := ih (i + 1) (st.renumber (applyNormalizer (depth + 1) amap aops).1
        (applyNormalizer (depth + 1) amap aops).2).1
      rcases hdropcount with ⟨h0, hc⟩ | ⟨h0, hc⟩
      · rw [hc]
        simp only [Val.definedByApply, if_pos] at *
        have h1 : nb - (i + 1) = 0 := by omega
        rw [h1, List.drop_zero] at hrec
        omega
      · rw [hc]
        omega
    · have ha' : t.definedByApply = false := by
        cases hb : t.definedByApply
        · rfl
        · exact absurd hb ha
      by_cases hi : i < nb
      · rw [normGo_cons_dim depth nb rd i t rest st ha' hi]
        dsimp only
        have hrec := ih (i + 1) (st.renumberOneDim t).1
        rw [renumberOneDim_concat] at hrec
        rcases hdropcount with ⟨h0, _⟩ | ⟨h0, hc⟩
        · omega
        · rw [hc]
          omega
      · rw [normGo_cons_sym depth nb rd i t rest st ha' hi]
        have hrec := ih (i + 1) (⟨st.reorderedDims, st.concatenatedSymbols ++ [t]⟩ : NState)
        simp only [List.length_append, List.length_cons, List.length_nil] at hrec
        rcases hdropcount with ⟨h0, hc⟩ | ⟨h0, hc⟩
        · rw [hc]
          have h1 : nb - (i + 1) = 0 := by omega
          rw [h1, List.drop_zero] at hrec
          simp [ha']
          omega
        · omega

/-- If the composing operand loop produces no auxiliary expression, then it
left the reordered dimensions unchanged, appended every operand to the
concatenated symbols, no operand was a producer, and (unless there were no
operands at all) the loop was already past the dimension section. -/
theorem normGo_aux_empty (depth nb rd : Nat) :
    ∀ (ops : List Val) (i : Nat) (st : NState),
      (normGo depth true nb rd i ops st).2 = [] →
      (normGo depth true nb rd i ops st).1 =
        ⟨st.reorderedDims, st.concatenatedSymbols ++ ops⟩ ∧
      (∀ v ∈ ops, v.definedByApply = false) ∧
      (ops = [] ∨ ¬ i < nb) := by
  intro ops
  induction ops with
  | nil =>
    intro i st _
    refine ⟨?_, by simp, Or.inl rfl⟩
    simp [normGo]
  | cons t rest ih =>
    intro i st h
    by_cases ha : t.definedByApply = true
    · obtain ⟨idn, idx, inF, amap, aops, ht⟩ : ∃ idn idx inF amap aops,
          t = Val.applyRes idn idx inF amap aops := by
        cases t <;> simp [Val.definedByApply] at ha ⊢
      subst ht
      rw [normGo_cons_apply] at h
      exact absurd h (List.cons_ne_nil _ _)
    · have ha' : t.definedByApply = false := by
        cases hb : t.definedByApply
        · rfl
        · exact absurd hb ha
      by_cases hi : i < nb
      · rw [normGo_cons_dim depth nb rd i t rest st ha' hi] at h
        exact absurd h (List.cons_ne_nil _ _)
      · rw [normGo_cons_sym depth nb rd i t rest st ha' hi] at h ⊢
        obtain ⟨h1, h2, _⟩ := ih (i + 1) ⟨st.reorderedDims, st.concatenatedSymbols ++ [t]⟩ h
        refine ⟨?_, ?_, Or.inr hi⟩
        · rw [h1]
          simp
        · intro v hv
          rcases List.mem_cons.mp hv with hv | hv
          · subst hv
            exact ha'
          · exact h2 v hv

/-- When no symbol operand comes from an affine.apply the promotion is the
identity. -/
theorem promote_id_of_no_apply (map : AffineMap) (symbols : List Val)
    (h : ∀ v ∈ symbols, v.definedByApply = false) :
    promoteComposedSymbolsAsDims map symbols = map := by
  unfold promoteComposedSymbolsAsDims
  by_cases h0 : symbols.isEmpty
  · rw [if_pos h0]
  · rw [if_neg h0, if_pos]
    exact List.all_eq_true.mpr (fun v hv => by simp [h v hv])

/-- The operand-count invariant of the AffineApplyNormalizer: at any depth,
the normalizer's operand list has exactly as many entries as its composed
map has dimensions plus symbols, whenever the input pair satisfied the same
equation. -/
theorem normalizer_counts (depth : Nat) (map : AffineMap) (operands : List Val)
    (hlen : operands.length = map.numDims + map.numSymbols) :
    (applyNormalizer depth map operands).1.getOperands.length =
      (applyNormalizer depth map operands).2.numDims +
        (applyNormalizer depth map operands).2.numSymbols := by
  have hsymlen : (operands.drop map.numDims).length = map.numSymbols := by
    rw [List.length_drop]
    omega
  have hprom := promote_counts map (operands.drop map.numDims) hsymlen
  unfold applyNormalizer NState.getOperands
  simp only [List.length_append]
  set rmap := promoteComposedSymbolsAsDims map (operands.drop map.numDims) with hrmap
  set r := normGo depth (decide (depth ≤ kMaxAffineApplyDepth)) map.numDims rmap.numDims 0
      operands ⟨[], []⟩ with hr
  by_cases haux : r.2.isEmpty
  · rw [show normalizerResult rmap r.1 r.2 = rmap by unfold normalizerResult; rw [if_pos haux]]
    have hauxnil : r.2 = [] := List.isEmpty_iff.mp haux
    cases hfc : decide (depth ≤ kMaxAffineApplyDepth) with
    | true =>
      rw [hr, hfc] at hauxnil
      obtain ⟨h1, h2, _⟩ := normGo_aux_empty depth map.numDims rmap.numDims operands 0
        ⟨[], []⟩ hauxnil
      rw [hr, hfc, h1]
      simp only [List.nil_append, List.length_nil]
      have hmapeq : rmap = map :=
        promote_id_of_no_apply map (operands.drop map.numDims)
          (fun v hv => h2 v (List.mem_of_mem_drop hv))
      rw [hmapeq]
      omega
    | false =>
      rw [hr, hfc, normGo_depth_exhausted] at hauxnil ⊢
      simp only at hauxnil ⊢
      have htake : operands.take (rmap.numDims - 0) = [] := by
        have := (renumberDims_spec (operands.take (rmap.numDims - 0)) ⟨[], []⟩).2.2
        rw [hauxnil] at this
        exact List.map_eq_nil_iff.mp this.symm
      rw [htake]
      obtain ⟨hp1, hp2⟩ := hprom
      have hcases : rmap.numDims = 0 ∨ operands = [] := by
        rcases List.take_eq_nil_iff.mp htake with h | h
        · left
          omega
        · right
          exact h
      simp only [renumberDims, List.length_nil, List.length_append, List.length_drop,
        Nat.zero_add, Nat.sub_zero]
      rcases hcases with h | h
      · rw [h]
        simp only [Nat.sub_zero, Nat.zero_add]
        omega
      · subst h
        simp only [List.length_nil] at hlen ⊢
        omega
  · rw [show normalizerResult rmap r.1 r.2 =
        simplifyAffineMap (rmap.compose
          ⟨r.1.reorderedDims.length, r.1.concatenatedSymbols.length - rmap.numSymbols, r.2⟩) by
      unfold normalizerResult
      rw [if_neg haux]]
    have hge : rmap.numSymbols ≤ r.1.concatenatedSymbols.length := by
      cases hfc : decide (depth ≤ kMaxAffineApplyDepth) with
      | true =>
        have := normGo_concat_lower depth map.numDims rmap.numDims operands 0 ⟨[], []⟩
        rw [hr, hfc]
        simp only [List.length_nil, Nat.zero_add, Nat.sub_zero] at this ⊢
        rw [hprom.1]
        exact this
      | false =>
        rw [hr, hfc, normGo_depth_exhausted]
        simp only [List.length_append, List.length_nil, List.length_drop, Nat.zero_add,
          Nat.sub_zero]
        omega
    show r.1.reorderedDims.length + r.1.concatenatedSymbols.length =
      (simplifyAffineMap _).numDims + (simplifyAffineMap _).numSymbols
    show r.1.reorderedDims.length + r.1.concatenatedSymbols.length =
      r.1.reorderedDims.length + (rmap.numSymbols +
        (r.1.concatenatedSymbols.length - rmap.numSymbols))
    omega

/-- The operand-count invariant of the canonicalizer. -/
theorem canonicalize_counts (m : AffineMap) (o : List Val)
    (hlen : o.length = m.numDims + m.numSymbols) :
    (canonicalizeMapOrSetAndOperands m o).2.length =
      (canonicalizeMapOrSetAndOperands m o).1.numDims +
        (canonicalizeMapOrSetAndOperands m o).1.numSymbols := by
  unfold canonicalizeMapOrSetAndOperands
  by_cases h : o.isEmpty
  · rw [if_pos h]
    have : o = [] := List.isEmpty_iff.mp h
    subst this
    simpa using hlen
  · rw [if_neg h]
    simp [AffineMap.replaceDimsAndSymbols, List.length_append]

/-- The operand-count invariant of one composition round. -/
theorem compose_counts (m : AffineMap) (o : List Val)
    (hlen : o.length = m.numDims + m.numSymbols) :
    (composeAffineMapAndOperands m o).2.length =
      (composeAffineMapAndOperands m o).1.numDims +
        (composeAffineMapAndOperands m o).1.numSymbols := by
  unfold composeAffineMapAndOperands canonicalizeMapAndOperands
  exact canonicalize_counts _ _ (normalizer_counts 1 m o hlen)

/-- The operand-count invariant of the bounded composition loop. -/
theorem composeIterate_counts :
    ∀ (n : Nat) (m : AffineMap) (o : List Val),
      o.length = m.numDims + m.numSymbols →
      (composeIterate n m o).2.length =
        (composeIterate n m o).1.numDims + (composeIterate n m o).1.numSymbols := by
  intro n
  induction n with
  | zero =>
    intro m o hlen
    exact hlen
  | succ k ih =>
    intro m o hlen
    unfold composeIterate
    by_cases h : o.any Val.definedByApply
    · rw [if_pos h]
      exact ih _ _ (compose_counts m o hlen)
    · rw [if_neg h]
      exact hlen

/-- C5: the operand-count invariant. Every pair produced by the public entry
points — the Normalizer's normalize, composeAffineMapAndOperands,
fullyComposeAffineMapAndOperands and canonicalizeMapAndOperands — has
exactly as many operands as its map has dimensions plus symbols, whenever
the input pair satisfied the same equation (the normalize output satisfies
it by construction at any enclosing state and depth). -/
theorem C5_operand_count_invariant :
    ∀ (map : AffineMap) (operands : List Val),
      operands.length = map.numDims + map.numSymbols →
      (∀ (st : NState) (depth : Nat),
        (st.normalize depth map operands).2.2.length =
          (st.normalize depth map operands).2.1.numDims +
            (st.normalize depth map operands).2.1.numSymbols) ∧
      ((composeAffineMapAndOperands map operands).2.length =
        (composeAffineMapAndOperands map operands).1.numDims +
          (composeAffineMapAndOperands map operands).1.numSymbols) ∧
      ((fullyComposeAffineMapAndOperands map operands).2.length =
        (fullyComposeAffineMapAndOperands map operands).1.numDims +
          (fullyComposeAffineMapAndOperands map operands).1.numSymbols) ∧
      ((canonicalizeMapAndOperands map operands).2.length =
        (canonicalizeMapAndOperands map operands).1.numDims +
          (canonicalizeMapAndOperands map operands).1.numSymbols) := by
  intro map operands hlen
  refine ⟨?_, compose_counts map operands hlen, ?_, canonicalize_counts map operands hlen⟩
  · intro st depth
    unfold NState.normalize NState.renumber NState.getOperands
    simp [AffineMap.replaceDimsAndSymbols, List.length_append]
  · unfold fullyComposeAffineMapAndOperands
    exact composeIterate_counts _ map operands hlen

/-- Witness for C5 at a concrete pair satisfying the operand-count contract:
the map (d0, d1) -> (d0) with two distinct induction-variable operands. -/
theorem C5_operand_count_invariant_witness :
    ((composeAffineMapAndOperands ⟨2, 0, [.dim 0]⟩ [.forArg 0 true, .forArg 1 true]).2.length =
      (composeAffineMapAndOperands ⟨2, 0, [.dim 0]⟩ [.forArg 0 true, .forArg 1 true]).1.numDims +
        (composeAffineMapAndOperands ⟨2, 0, [.dim 0]⟩
          [.forArg 0 true, .forArg 1 true]).1.numSymbols) ∧
    ((canonicalizeMapAndOperands ⟨2, 0, [.dim 0]⟩ [.forArg 0 true, .forArg 1 true]).2.length =
      (canonicalizeMapAndOperands ⟨2, 0, [.dim 0]⟩ [.forArg 0 true, .forArg 1 true]).1.numDims +
        (canonicalizeMapAndOperands ⟨2, 0, [.dim 0]⟩
          [.forArg 0 true, .forArg 1 true]).1.numSymbols) :=
  ⟨(C5_operand_count_invariant ⟨2, 0, [.dim 0]⟩ [.forArg 0 true, .forArg 1 true] rfl).2.1,
   (C5_operand_count_invariant ⟨2, 0, [.dim 0]⟩ [.forArg 0 true, .forArg 1 true] rfl).2.2.2⟩

/-- A weightless list is empty. -/
theorem wList_eq_zero : ∀ l : List Val, Val.wList l = 0 → l = [] := by
  intro l h
  cases l with
  | nil => rfl
  | cons v vs =>
    exfalso
    have := Val.w_pos v
    simp [Val.wList] at h
    omega

/-- Deduplicating onto an accumulator weighs at most both parts. -/
theorem dedupAppend_weight :
    ∀ (l acc : List Val), Val.wList (dedupAppend acc l) ≤ Val.wList acc + Val.wList l := by
  intro l
  induction l with
  | nil =>
    intro acc
    simp [dedupAppend, Val.wList]
  | cons v vs ih =>
    intro acc
    by_cases h : v ∈ acc
    · simp only [dedupAppend, if_pos h]
      have := ih acc
      simp only [Val.wList]
      have hp := Val.w_pos v
      omega
    · simp only [dedupAppend, if_neg h]
      have := ih (acc ++ [v])
      rw [Val.wList_append] at this
      simp only [Val.wList] at this ⊢
      omega

/-- renumber weighs at most the two states it merges. -/
theorem renumber_weight (st inner : NState) (innerMap : AffineMap) :
    (st.renumber inner innerMap).1.weight ≤ st.weight + inner.weight := by
  unfold NState.weight
  rw [renumber_reordered, renumber_concat, Val.wList_append]
  have := dedupAppend_weight inner.reorderedDims st.reorderedDims
  omega

/-- renumberOneDim adds at most the weight of the renumbered operand. -/
theorem renumberOneDim_weight (st : NState) (v : Val) :
    (st.renumberOneDim v).1.weight ≤ st.weight + Val.w v := by
  unfold NState.renumberOneDim NState.weight
  cases posOf v st.reorderedDims with
  | none =>
    simp only [Val.wList_append]
    simp [Val.wList]
    omega
  | some p => simp

/-- In the depth-exhausted branch the state weighs at most the input state
plus the processed operands. -/
theorem normGo_false_weight (depth nb rd i : Nat) (ops : List Val) (st : NState) :
    (normGo depth false nb rd i ops st).1.weight ≤ st.weight + Val.wList ops := by
  rw [normGo_depth_exhausted]
  show Val.wList (renumberDims st (ops.take (rd - i))).1.reorderedDims +
      Val.wList (st.concatenatedSymbols ++ ops.drop (rd - i)) ≤ _
  rw [(renumberDims_spec (ops.take (rd - i)) st).1, Val.wList_append]
  have h1 := dedupAppend_weight (ops.take (rd - i)) st.reorderedDims
  have h2 : Val.wList (ops.take (rd - i)) + Val.wList (ops.drop (rd - i)) = Val.wList ops := by
    rw [← Val.wList_append, List.take_append_drop]
  unfold NState.weight at *
  omega

/-- The combined weight bound of the Normalizer: in the composing loop the
final state weight plus one unit per producer operand is bounded by the
initial state weight plus the operand weight, and consequently a
normalizer's state never outweighs its operand list. -/
theorem normalizer_weight :
    ∀ n : Nat,
      (∀ (depth nb rd : Nat) (ops : List Val), Val.wList ops ≤ n → ∀ (i : Nat) (st : NState),
        (normGo depth true nb rd i ops st).1.weight + ops.countP Val.definedByApply ≤
          st.weight + Val.wList ops) ∧
      (∀ (depth : Nat) (map : AffineMap) (ops : List Val), Val.wList ops ≤ n →
        (applyNormalizer depth map ops).1.weight ≤ Val.wList ops) := by
  intro n
  induction n using Nat.strong_induction_on with
  | _ n IH =>
    have hQ : ∀ (depth nb rd : Nat) (ops : List Val), Val.wList ops ≤ n → ∀ (i : Nat)
        (st : NState),
        (normGo depth true nb rd i ops st).1.weight + ops.countP Val.definedByApply ≤
          st.weight + Val.wList ops := by
      intro depth nb rd ops
      induction ops with
      | nil =>
        intro _ i st
        simp [normGo, List.countP_nil, Val.wList]
      | cons t rest ihrest =>
        intro hw i st
        have hwt : 1 ≤ Val.w t := Val.w_pos t
        have hwrest : Val.wList rest ≤ n := by
          simp only [Val.wList] at hw
          omega
        by_cases ha : t.definedByApply = true
        · obtain ⟨idn, idx, inF, amap, aops, ht⟩ : ∃ idn idx inF amap aops,
              t = Val.applyRes idn idx inF amap aops := by
            cases t <;> simp [Val.definedByApply] at ha ⊢
          subst ht
          rw [normGo_cons_apply]
          dsimp only
          have hwt' : Val.w (Val.applyRes idn idx inF amap aops) = 1 + Val.wList aops := by
            simp [Val.w]
          have hwa : Val.wList aops < n := by
            simp only [Val.wList] at hw
            omega
          have hinner := (IH (Val.wList aops) hwa).2 (depth + 1) amap aops le_rfl
          have hren := renumber_weight st (applyNormalizer (depth + 1) amap aops).1
            (applyNormalizer (depth + 1) amap aops).2
          have hrec := ihrest hwrest (i + 1)
            (st.renumber (applyNormalizer (depth + 1) amap aops).1
              (applyNormalizer (depth + 1) amap aops).2).1
          have hcount : (Val.applyRes idn idx inF amap aops :: rest).countP Val.definedByApply =
              rest.countP Val.definedByApply + 1 := by
            simp [List.countP_cons, Val.definedByApply]
          rw [hcount]
          simp only [Val.wList] at *
          omega
        · have ha' : t.definedByApply = false := by
            cases hb : t.definedByApply
            · rfl
            · exact absurd hb ha
          have hcount : (t :: rest).countP Val.definedByApply =
              rest.countP Val.definedByApply := by
            simp [List.countP_cons, ha']
          by_cases hi : i < nb
          · rw [normGo_cons_dim depth nb rd i t rest st ha' hi]
            dsimp only
            have hone := renumberOneDim_weight st t
            have hrec := ihrest hwrest (i + 1) (st.renumberOneDim t).1
            rw [hcount]
            simp only [Val.wList] at *
            omega
          · rw [normGo_cons_sym depth nb rd i t rest st ha' hi]
            have hrec := ihrest hwrest (i + 1)
              (⟨st.reorderedDims, st.concatenatedSymbols ++ [t]⟩ : NState)
            have hstw : (⟨st.reorderedDims, st.concatenatedSymbols ++ [t]⟩ : NState).weight =
                st.weight + Val.w t := by
              unfold NState.weight
              rw [Val.wList_append]
              simp [Val.wList]
              omega
            rw [hcount]
            rw [hstw] at hrec
            simp only [Val.wList] at *
            omega
    refine ⟨hQ, ?_⟩
    intro depth map ops hw
    unfold applyNormalizer
    dsimp only
    cases hfc : decide (depth ≤ kMaxAffineApplyDepth) with
    | true =>
      have := hQ depth map.numDims
        (promoteComposedSymbolsAsDims map (ops.drop map.numDims)).numDims ops hw 0 ⟨[], []⟩
      have hz : (⟨[], []⟩ : NState).weight = 0 := rfl
      rw [hz] at this
      omega
    | false =>
      have := normGo_false_weight depth map.numDims
        (promoteComposedSymbolsAsDims map (ops.drop map.numDims)).numDims 0 ops ⟨[], []⟩
      have hz : (⟨[], []⟩ : NState).weight = 0 := rfl
      rw [hz] at this
      omega

/-- The promotion split partitions the weight of the dimension section. -/
theorem promoSplit_weight :
    ∀ (l : List Val) (oldNumSyms nextDim nextSym : Nat),
      Val.wList (promoSplit oldNumSyms nextDim nextSym l).2.1 +
        Val.wList (promoSplit oldNumSyms nextDim nextSym l).2.2 = Val.wList l := by
  intro l
  induction l with
  | nil =>
    intro a b c
    simp [promoSplit, Val.wList]
  | cons v vs ih =>
    intro a b c
    by_cases h : isValidSymbol v
    · simp only [promoSplit, if_pos h, Val.wList]
      have := ih a b (c + 1)
      omega
    · simp only [promoSplit, if_neg h, Val.wList]
      have := ih a (b + 1) c
      omega

/-- The kept dimension operands of the usage pass weigh at most the scanned
section. -/
theorem canonDims_weight (usedf : Nat → Bool) :
    ∀ (l : List Val) (i : Nat) (seen : List Val),
      Val.wList (canonDims usedf i seen l).2 ≤ Val.wList l := by
  intro l
  induction l with
  | nil =>
    intro i seen
    simp [canonDims, Val.wList]
  | cons v vs ih =>
    intro i seen
    have hwv := Val.w_pos v
    by_cases hu : usedf i
    · cases hp : posOf v seen with
      | some k =>
        simp only [canonDims, if_pos hu, hp]
        have := ih (i + 1) seen
        simp only [Val.wList]
        omega
      | none =>
        simp only [canonDims, if_pos hu, hp]
        have := ih (i + 1) (seen ++ [v])
        simp only [Val.wList]
        omega
    · simp only [canonDims, if_neg hu]
      have := ih (i + 1) seen
      simp only [Val.wList]
      omega

/-- The kept symbol operands of the usage pass weigh at most the scanned
section. -/
theorem canonSyms_weight (usedf : Nat → Bool) :
    ∀ (l : List Val) (i : Nat) (seen : List Val),
      Val.wList (canonSyms usedf i seen l).2 ≤ Val.wList l := by
  intro l
  induction l with
  | nil =>
    intro i seen
    simp [canonSyms, Val.wList]
  | cons v vs ih =>
    intro i seen
    have hwv := Val.w_pos v
    by_cases hu : usedf i
    · cases hc : v.getConstant with
      | some c =>
        simp only [canonSyms, if_pos hu, hc]
        have := ih (i + 1) seen
        simp only [Val.wList]
        omega
      | none =>
        cases hp : posOf v seen with
        | some k =>
          simp only [canonSyms, if_pos hu, hc, hp]
          have := ih (i + 1) seen
          simp only [Val.wList]
          omega
        | none =>
          simp only [canonSyms, if_pos hu, hc, hp]
          have := ih (i + 1) (seen ++ [v])
          simp only [Val.wList]
          omega
    · simp only [canonSyms, if_neg hu]
      have := ih (i + 1) seen
      simp only [Val.wList]
      omega

/-- The canonicalizer never increases the total operand weight. -/
theorem canonicalize_weight (m : AffineMap) (o : List Val) :
    Val.wList (canonicalizeMapOrSetAndOperands m o).2 ≤ Val.wList o := by
  unfold canonicalizeMapOrSetAndOperands
  by_cases h : o.isEmpty
  · rw [if_pos h]
  · rw [if_neg h]
    dsimp only
    unfold canonicalizePromotedSymbols
    rw [if_neg h]
    dsimp only
    rw [Val.wList_append]
    have hsplit := promoSplit_weight (o.take m.numDims) m.numSymbols 0 0
    have hod : Val.wList (o.take m.numDims) + Val.wList (o.drop m.numDims) = Val.wList o := by
      rw [← Val.wList_append, List.take_append_drop]
    refine le_trans (Nat.add_le_add (canonDims_weight _ _ 0 []) (canonSyms_weight _ _ 0 [])) ?_
    rw [← Val.wList_append, List.take_append_drop, Val.wList_append, Val.wList_append]
    omega

/-- Each composition round on a list still containing a producer operand
strictly decreases the total operand weight: at least one producer edge is
removed. -/
theorem compose_weight_decrease (m : AffineMap) (o : List Val)
    (h : o.any Val.definedByApply = true) :
    Val.wList (composeAffineMapAndOperands m o).2 < Val.wList o := by
  unfold composeAffineMapAndOperands canonicalizeMapAndOperands
  dsimp only
  have hcanon := canonicalize_weight (applyNormalizer 1 m o).2 (applyNormalizer 1 m o).1.getOperands
  have hops : Val.wList (applyNormalizer 1 m o).1.getOperands =
      (applyNormalizer 1 m o).1.weight := by
    unfold NState.getOperands NState.weight
    rw [Val.wList_append]
  have hcount : 0 < o.countP Val.definedByApply := by
    rw [List.countP_pos_iff]
    obtain ⟨v, hv, hva⟩ := List.any_eq_true.mp h
    exact ⟨v, hv, hva⟩
  have hnw : (applyNormalizer 1 m o).1.weight + o.countP Val.definedByApply ≤ Val.wList o := by
    unfold applyNormalizer
    dsimp only
    have hfc : decide (1 ≤ kMaxAffineApplyDepth) = true := by decide
    rw [hfc]
    have := (normalizer_weight (Val.wList o)).1 1 m.numDims
      (promoteComposedSymbolsAsDims m (o.drop m.numDims)).numDims o le_rfl 0 ⟨[], []⟩
    have hz : (⟨[], []⟩ : NState).weight = 0 := rfl
    rw [hz] at this
    omega
  omega

/-- A round budget that covers the operand weight reaches the loop's exit
condition: no operand of the result is an affine.apply result. -/
theorem composeIterate_exits :
    ∀ (k : Nat) (m : AffineMap) (o : List Val), Val.wList o ≤ k →
      (composeIterate k m o).2.any Val.definedByApply = false := by
  intro k
  induction k with
  | zero =>
    intro m o hw
    have : o = [] := wList_eq_zero o (by omega)
    subst this
    simp [composeIterate]
  | succ j ih =>
    intro m o hw
    unfold composeIterate
    by_cases h : o.any Val.definedByApply = true
    · rw [if_pos h]
      have hdec := compose_weight_decrease m o h
      exact ih _ _ (by omega)
    · rw [if_neg h]
      simpa using h

/-- C2: fullyComposeAffineMapAndOperands terminates on every input: each
round of the loop, taken while some operand is an affine.apply result,
strictly decreases the total weight of the operand list (each application
removes at least one producer edge), so after at most the initial weight of
the operand list the loop's exit condition holds: the computed fixed point
has no producer operand left. -/
theorem C2_fullyCompose_terminates :
    ∀ (map : AffineMap) (operands : List Val),
      ((operands.any Val.definedByApply) = true →
        Val.wList (composeAffineMapAndOperands map operands).2 < Val.wList operands) ∧
      (fullyComposeAffineMapAndOperands map operands).2.any Val.definedByApply = false := by
  intro map operands
  refine ⟨fun h => compose_weight_decrease map operands h, ?_⟩
  unfold fullyComposeAffineMapAndOperands
  exact composeIterate_exits (Val.wList operands + 1) map operands (by omega)

/-- Witness for C2 at a concrete input with a producer operand: the identity
map applied to one affine.apply result (of the constant map). -/
theorem C2_fullyCompose_terminates_witness :
    Val.wList (composeAffineMapAndOperands ⟨1, 0, [.dim 0]⟩
        [.applyRes 1 true false ⟨0, 0, [.constant 5]⟩ []]).2 <
      Val.wList [.applyRes 1 true false ⟨0, 0, [.constant 5]⟩ []] :=
  (C2_fullyCompose_terminates ⟨1, 0, [.dim 0]⟩
    [.applyRes 1 true false ⟨0, 0, [.constant 5]⟩ []]).1 rfl

/-- An occurrence of a dimension reference survives substitution: if the
expression uses dimension p and the replacement at p is the dimension k,
the substituted expression uses dimension k. -/
theorem usesDim_replace_of_usesDim :
    ∀ (e : AffineExpr) (p k : Nat) (dR sR : List AffineExpr),
      e.usesDim p = true → dR.getD p (.dim p) = .dim k →
      (e.replaceDimsAndSymbols dR sR).usesDim k = true := by
  intro e
  induction e
  case dim q =>
    intro p k dR sR hu hg
    have : q = p := by simpa [AffineExpr.usesDim] using hu
    subst this
    simp only [AffineExpr.replaceDimsAndSymbols]
    rw [hg]
    simp [AffineExpr.usesDim]
  case symbol q =>
    intro p k dR sR hu _
    simp [AffineExpr.usesDim] at hu
  case constant c =>
    intro p k dR sR hu _
    simp [AffineExpr.usesDim] at hu
  all_goals
    intro p k dR sR hu hg
    simp only [AffineExpr.usesDim, Bool.or_eq_true] at hu
    simp only [AffineExpr.replaceDimsAndSymbols, AffineExpr.usesDim, Bool.or_eq_true]
    rcases hu with hu | hu
    · exact Or.inl (by solve_by_elim)
    · exact Or.inr (by solve_by_elim)

/-- An occurrence of a symbol reference survives substitution into the
symbol it is replaced by. -/
theorem usesSymbol_replace_of_usesSymbol :
    ∀ (e : AffineExpr) (q k : Nat) (dR sR : List AffineExpr),
      e.usesSymbol q = true → sR.getD q (.symbol q) = .symbol k →
      (e.replaceDimsAndSymbols dR sR).usesSymbol k = true := by
  intro e
  induction e
  case symbol p =>
    intro q k dR sR hu hg
    have : p = q := by simpa [AffineExpr.usesSymbol] using hu
    subst this
    simp only [AffineExpr.replaceDimsAndSymbols]
    rw [hg]
    simp [AffineExpr.usesSymbol]
  case dim p =>
    intro q k dR sR hu _
    simp [AffineExpr.usesSymbol] at hu
  case constant c =>
    intro q k dR sR hu _
    simp [AffineExpr.usesSymbol] at hu
  all_goals
    intro q k dR sR hu hg
    simp only [AffineExpr.usesSymbol, Bool.or_eq_true] at hu
    simp only [AffineExpr.replaceDimsAndSymbols, AffineExpr.usesSymbol, Bool.or_eq_true]
    rcases hu with hu | hu
    · exact Or.inl (by solve_by_elim)
    · exact Or.inr (by solve_by_elim)

/-- Well-formedness of a substituted expression from per-used-position
bounds on the replacement entries. -/
theorem replace_below (nD nS : Nat) :
    ∀ (e : AffineExpr) (dR sR : List AffineExpr),
      (∀ p, e.usesDim p = true →
        (dR.getD p (.dim p)).dimsBelow nD = true ∧ (dR.getD p (.dim p)).symsBelow nS = true) →
      (∀ q, e.usesSymbol q = true →
        (sR.getD q (.symbol q)).dimsBelow nD = true ∧
          (sR.getD q (.symbol q)).symsBelow nS = true) →
      (e.replaceDimsAndSymbols dR sR).dimsBelow nD = true ∧
        (e.replaceDimsAndSymbols dR sR).symsBelow nS = true := by
  intro e
  induction e <;> intro dR sR hD hS
  case dim p => exact hD p (by simp [AffineExpr.usesDim])
  case symbol q => exact hS q (by simp [AffineExpr.usesSymbol])
  case constant c => simp [AffineExpr.replaceDimsAndSymbols, AffineExpr.dimsBelow,
    AffineExpr.symsBelow]
  all_goals
    rename_i l r ihl ihr
    have hl := ihl dR sR (fun p hp => hD p (by simp [AffineExpr.usesDim, hp]))
      (fun q hq => hS q (by simp [AffineExpr.usesSymbol, hq]))
    have hr := ihr dR sR (fun p hp => hD p (by simp [AffineExpr.usesDim, hp]))
      (fun q hq => hS q (by simp [AffineExpr.usesSymbol, hq]))
    simp [AffineExpr.replaceDimsAndSymbols, AffineExpr.dimsBelow, AffineExpr.symsBelow,
      hl.1, hl.2, hr.1, hr.2]

/-- A substitution whose entries are the identity on every used position is
the identity. -/
theorem replace_id :
    ∀ (e : AffineExpr) (dR sR : List AffineExpr),
      (∀ p, e.usesDim p = true → dR.getD p (.dim p) = .dim p) →
      (∀ q, e.usesSymbol q = true → sR.getD q (.symbol q) = .symbol q) →
      e.replaceDimsAndSymbols dR sR = e := by
  intro e
  induction e <;> intro dR sR hD hS
  case dim p => exact hD p (by simp [AffineExpr.usesDim])
  case symbol q => exact hS q (by simp [AffineExpr.usesSymbol])
  case constant c => rfl
  all_goals
    rename_i l r ihl ihr
    have hl := ihl dR sR (fun p hp => hD p (by simp [AffineExpr.usesDim, hp]))
      (fun q hq => hS q (by simp [AffineExpr.usesSymbol, hq]))
    have hr := ihr dR sR (fun p hp => hD p (by simp [AffineExpr.usesDim, hp]))
      (fun q hq => hS q (by simp [AffineExpr.usesSymbol, hq]))
    simp [AffineExpr.replaceDimsAndSymbols, hl, hr]

/-- Mapping a function that fixes every element of a list is the
identity. -/
theorem map_id_of {α : Type} (f : α → α) :
    ∀ l : List α, (∀ a ∈ l, f a = a) → l.map f = l := by
  intro l
  induction l with
  | nil => intro _; rfl
  | cons a as ih =>
    intro h
    simp only [List.map_cons, h a (List.mem_cons_self a as),
      ih (fun b hb => h b (List.mem_cons_of_mem a hb))]

/-- getD agrees with a successful indexed lookup whatever the default. -/
theorem getD_of_lookup (l : List AffineExpr) (n : Nat) (a d : AffineExpr)
    (h : l[n]? = some a) : l.getD n d = a := by
  have hn : n < l.length := by
    by_contra hc
    rw [List.getElem?_eq_none (by omega)] at h
    exact Option.noConfusion h
  rw [List.getD_eq_getElem l d hn]
  have h2 : l[n]? = some l[n] := List.getElem?_eq_getElem hn
  rw [h2] at h
  exact Option.some.inj h

/-- A map whose substitution entries are the identity reference at every
position is returned unchanged by replaceDimsAndSymbols when the counts are
also unchanged. -/
theorem replace_map_id (m : AffineMap) (dR sR : List AffineExpr) (nd ns : Nat)
    (hD : ∀ p, dR.getD p (.dim p) = AffineExpr.dim p)
    (hS : ∀ q, sR.getD q (.symbol q) = AffineExpr.symbol q)
    (hnd : nd = m.numDims) (hns : ns = m.numSymbols) :
    m.replaceDimsAndSymbols dR sR nd ns = m := by
  subst hnd
  subst hns
  unfold AffineMap.replaceDimsAndSymbols
  rw [map_id_of _ m.results
    (fun e _ => replace_id e dR sR (fun p _ => hD p) (fun q _ => hS q))]

/-- promoSplit keeps exactly the dimension operands that are not valid
symbols, in their original order. -/
theorem promoSplit_kept (a : Nat) :
    ∀ (l : List Val) (b c : Nat) (v : Val),
      v ∈ (promoSplit a b c l).2.1 → isValidSymbol v = false := by
  intro l
  induction l with
  | nil =>
    intro b c v hv
    simp [promoSplit] at hv
  | cons w ws ih =>
    intro b c v hv
    by_cases hw : isValidSymbol w
    · simp only [promoSplit, if_pos hw] at hv
      exact ih b (c + 1) v hv
    · simp only [promoSplit, if_neg hw, List.mem_cons] at hv
      rcases hv with h | hv
      · rw [h]
        simpa using hw
      · exact ih (b + 1) c v hv

/-- On a dimension section with no valid-symbol operand, promoSplit promotes
nothing: the remapping renumbers the dimensions contiguously from the start
counter and all operands are kept. -/
theorem promoSplit_id (a : Nat) :
    ∀ (l : List Val) (b c : Nat), (∀ v ∈ l, isValidSymbol v = false) →
      promoSplit a b c l =
        ((List.range l.length).map (fun j => AffineExpr.dim (b + j)), l, []) := by
  intro l
  induction l with
  | nil =>
    intro b c _
    rfl
  | cons w ws ih =>
    intro b c h
    have hw : ¬ (isValidSymbol w = true) := by
      simp [h w (List.mem_cons_self w ws)]
    simp only [promoSplit, if_neg hw,
      ih (b + 1) c (fun v hv => h v (List.mem_cons_of_mem w hv)), Prod.mk.injEq]
    refine ⟨?_, by simp⟩
    rw [List.length_cons, List.range_succ_eq_map, List.map_cons, List.map_map]
    refine congrArg₂ _ (by rw [Nat.add_zero]) ?_
    refine List.map_congr_left ?_
    intro j _
    simp only [Function.comp]
    exact congrArg AffineExpr.dim (by omega)

/-- canonDims produces one remapping entry per scanned operand. -/
theorem canonDims_len (usedf : Nat → Bool) :
    ∀ (l : List Val) (i : Nat) (seen : List Val),
      (canonDims usedf i seen l).1.length = l.length := by
  intro l
  induction l with
  | nil =>
    intro i seen
    rfl
  | cons v vs ih =>
    intro i seen
    by_cases hu : usedf i
    · cases hp : posOf v seen with
      | some k => simp only [canonDims, if_pos hu, hp, List.length_cons, ih]
      | none => simp only [canonDims, if_pos hu, hp, List.length_cons, ih]
    · simp only [canonDims, if_neg hu, List.length_cons, ih]

/-- Every operand kept by canonDims comes from the scanned section. -/
theorem canonDims_sub (usedf : Nat → Bool) :
    ∀ (l : List Val) (i : Nat) (seen : List Val) (v : Val),
      v ∈ (canonDims usedf i seen l).2 → v ∈ l := by
  intro l
  induction l with
  | nil =>
    intro i seen v hv
    simp [canonDims] at hv
  | cons w ws ih =>
    intro i seen v hv
    by_cases hu : usedf i
    · cases hp : posOf w seen with
      | some k =>
        simp only [canonDims, if_pos hu, hp] at hv
        exact List.mem_cons_of_mem w (ih (i + 1) seen v hv)
      | none =>
        simp only [canonDims, if_pos hu, hp, List.mem_cons] at hv
        rcases hv with h | hv
        · exact List.mem_cons.2 (Or.inl h)
        · exact List.mem_cons_of_mem w (ih (i + 1) (seen ++ [w]) v hv)
    · simp only [canonDims, if_neg hu] at hv
      exact List.mem_cons_of_mem w (ih (i + 1) seen v hv)

/-- The operands kept by canonDims are pairwise distinct and none of them
was already assigned a position. -/
theorem canonDims_nodup (usedf : Nat → Bool) :
    ∀ (l : List Val) (i : Nat) (seen : List Val),
      (canonDims usedf i seen l).2.Nodup ∧
        ∀ v ∈ (canonDims usedf i seen l).2, v ∉ seen := by
  intro l
  induction l with
  | nil =>
    intro i seen
    constructor
    · simp [canonDims]
    · intro v hv
      simp [canonDims] at hv
  | cons w ws ih =>
    intro i seen
    by_cases hu : usedf i
    · cases hp : posOf w seen with
      | some k =>
        simp only [canonDims, if_pos hu, hp]
        exact ih (i + 1) seen
      | none =>
        simp only [canonDims, if_pos hu, hp]
        obtain ⟨hnd, hdisj⟩ := ih (i + 1) (seen ++ [w])
        have hwseen : w ∉ seen := by
          intro hmem
          have hmem2 := (posOf_isSome_iff_mem w seen).2 hmem
          rw [hp] at hmem2
          simp at hmem2
        constructor
        · refine List.nodup_cons.2 ⟨?_, hnd⟩
          intro hmem
          exact hdisj w hmem (by simp)
        · intro v hv
          rcases List.mem_cons.1 hv with h | hv
          · rw [h]
            exact hwseen
          · intro hmem
            exact hdisj v hv (by simp [hmem])
    · simp only [canonDims, if_neg hu]
      exact ih (i + 1) seen

/-- Every assigned dimension position of canonDims is reached by some used
scanned position whose remapping entry refers to it. -/
theorem canonDims_used (usedf : Nat → Bool) :
    ∀ (l : List Val) (i : Nat) (seen : List Val) (j : Nat),
      seen.length ≤ j → j < seen.length + (canonDims usedf i seen l).2.length →
      ∃ idx, idx < l.length ∧ usedf (i + idx) = true ∧
        (canonDims usedf i seen l).1[idx]? = some (AffineExpr.dim j) := by
  intro l
  induction l with
  | nil =>
    intro i seen j h1 h2
    simp [canonDims] at h2
    omega
  | cons w ws ih =>
    intro i seen j h1 h2
    by_cases hu : usedf i
    · cases hp : posOf w seen with
      | some k =>
        simp only [canonDims, if_pos hu, hp] at h2 ⊢
        obtain ⟨idx, hlt, hus, hget⟩ := ih (i + 1) seen j h1 h2
        refine ⟨idx + 1, by simpa using hlt, ?_, ?_⟩
        · rw [Nat.add_comm idx 1, ← Nat.add_assoc]
          exact hus
        · simpa using hget
      | none =>
        simp only [canonDims, if_pos hu, hp, List.length_cons] at h2 ⊢
        by_cases hj : j = seen.length
        · subst hj
          exact ⟨0, by simp, by simpa using hu, by simp⟩
        · have h1' : (seen ++ [w]).length ≤ j := by
            simp only [List.length_append, List.length_cons, List.length_nil]
            omega
          have h2' : j < (seen ++ [w]).length + (canonDims usedf (i + 1) (seen ++ [w]) ws).2.length := by
            simp only [List.length_append, List.length_cons, List.length_nil]
            omega
          obtain ⟨idx, hlt, hus, hget⟩ := ih (i + 1) (seen ++ [w]) j h1' h2'
          refine ⟨idx + 1, by simpa using hlt, ?_, ?_⟩
          · rw [Nat.add_comm idx 1, ← Nat.add_assoc]
            exact hus
          · simpa using hget
    · simp only [canonDims, if_neg hu] at h2 ⊢
      obtain ⟨idx, hlt, hus, hget⟩ := ih (i + 1) seen j h1 h2
      refine ⟨idx + 1, by simpa using hlt, ?_, ?_⟩
      · rw [Nat.add_comm idx 1, ← Nat.add_assoc]
        exact hus
      · simpa using hget

/-- On a fully used, duplicate-free, unseen section, canonDims is the identity:
contiguous renumbering after the seen block and all operands kept. -/
theorem canonDims_id (usedf : Nat → Bool) :
    ∀ (l : List Val) (i : Nat) (seen : List Val),
      (∀ idx, idx < l.length → usedf (i + idx) = true) →
      l.Nodup → (∀ v ∈ l, v ∉ seen) →
      canonDims usedf i seen l =
        ((List.range l.length).map (fun j => AffineExpr.dim (seen.length + j)), l) := by
  intro l
  induction l with
  | nil =>
    intro i seen _ _ _
    rfl
  | cons w ws ih =>
    intro i seen hused hnd hdisj
    have hu : usedf i = true := by
      have := hused 0 (by simp)
      simpa using this
    have hwseen : w ∉ seen := hdisj w (List.mem_cons_self w ws)
    have hp : posOf w seen = none := by
      cases hq : posOf w seen with
      | none => rfl
      | some k =>
        exact absurd ((posOf_isSome_iff_mem w seen).1 (by rw [hq]; rfl)) hwseen
    have hrec := ih (i + 1) (seen ++ [w])
      (fun idx hidx => by
        have := hused (idx + 1) (by simpa using hidx)
        rw [Nat.add_comm idx 1, ← Nat.add_assoc] at this
        exact this)
      (List.nodup_cons.1 hnd).2
      (fun v hv => by
        intro hmem
        rcases List.mem_append.1 hmem with hmem | hmem
        · exact hdisj v (List.mem_cons_of_mem w hv) hmem
        · have : v = w := by simpa using hmem
          exact (List.nodup_cons.1 hnd).1 (this ▸ hv))
    simp only [canonDims, if_pos hu, hp, hrec, Prod.mk.injEq]
    refine ⟨?_, trivial⟩
    rw [List.length_cons, List.range_succ_eq_map, List.map_cons, List.map_map]
    refine congrArg₂ _ (by rw [Nat.add_zero]) ?_
    refine List.map_congr_left ?_
    intro j _
    simp only [Function.comp, List.length_append, List.length_cons, List.length_nil]
    refine congrArg _ ?_
    omega

/-- The operands kept by canonSyms are pairwise distinct and none of them
was already assigned a position. -/
theorem canonSyms_nodup (usedf : Nat → Bool) :
    ∀ (l : List Val) (i : Nat) (seen : List Val),
      (canonSyms usedf i seen l).2.Nodup ∧
        ∀ v ∈ (canonSyms usedf i seen l).2, v ∉ seen := by
  intro l
  induction l with
  | nil =>
    intro i seen
    constructor
    · simp [canonSyms]
    · intro v hv
      simp [canonSyms] at hv
  | cons w ws ih =>
    intro i seen
    by_cases hu : usedf i
    · cases hc : w.getConstant with
      | some c =>
        simp only [canonSyms, if_pos hu, hc]
        exact ih (i + 1) seen
      | none =>
        cases hp : posOf w seen with
        | some k =>
          simp only [canonSyms, if_pos hu, hc, hp]
          exact ih (i + 1) seen
        | none =>
          simp only [canonSyms, if_pos hu, hc, hp]
          obtain ⟨hnd, hdisj⟩ := ih (i + 1) (seen ++ [w])
          have hwseen : w ∉ seen := by
            intro hmem
            have hmem2 := (posOf_isSome_iff_mem w seen).2 hmem
            rw [hp] at hmem2
            simp at hmem2
          constructor
          · refine List.nodup_cons.2 ⟨?_, hnd⟩
            intro hmem
            exact hdisj w hmem (by simp)
          · intro v hv
            rcases List.mem_cons.1 hv with h | hv
            · rw [h]
              exact hwseen
            · intro hmem
              exact hdisj v hv (by simp [hmem])
    · simp only [canonSyms, if_neg hu]
      exact ih (i + 1) seen

/-- No operand kept by canonSyms is a compile-time constant: constant symbol
operands are folded into the map instead. -/
theorem canonSyms_noconst (usedf : Nat → Bool) :
    ∀ (l : List Val) (i : Nat) (seen : List Val) (v : Val),
      v ∈ (canonSyms usedf i seen l).2 → v.getConstant = none := by
  intro l
  induction l with
  | nil =>
    intro i seen v hv
    simp [canonSyms] at hv
  | cons w ws ih =>
    intro i seen v hv
    by_cases hu : usedf i
    · cases hc : w.getConstant with
      | some c =>
        simp only [canonSyms, if_pos hu, hc] at hv
        exact ih (i + 1) seen v hv
      | none =>
        cases hp : posOf w seen with
        | some k =>
          simp only [canonSyms, if_pos hu, hc, hp] at hv
          exact ih (i + 1) seen v hv
        | none =>
          simp only [canonSyms, if_pos hu, hc, hp, List.mem_cons] at hv
          rcases hv with h | hv
          · rw [h]
            exact hc
          · exact ih (i + 1) (seen ++ [w]) v hv
    · simp only [canonSyms, if_neg hu] at hv
      exact ih (i + 1) seen v hv

/-- Every assigned symbol position of canonSyms is reached by some used
scanned position whose remapping entry refers to it. -/
theorem canonSyms_used (usedf : Nat → Bool) :
    ∀ (l : List Val) (i : Nat) (seen : List Val) (j : Nat),
      seen.length ≤ j → j < seen.length + (canonSyms usedf i seen l).2.length →
      ∃ idx, idx < l.length ∧ usedf (i + idx) = true ∧
        (canonSyms usedf i seen l).1[idx]? = some (AffineExpr.symbol j) := by
  intro l
  induction l with
  | nil =>
    intro i seen j h1 h2
    simp [canonSyms] at h2
    omega
  | cons w ws ih =>
    intro i seen j h1 h2
    by_cases hu : usedf i
    · cases hc : w.getConstant with
      | some c =>
        simp only [canonSyms, if_pos hu, hc] at h2 ⊢
        obtain ⟨idx, hlt, hus, hget⟩ := ih (i + 1) seen j h1 h2
        refine ⟨idx + 1, by simpa using hlt, ?_, ?_⟩
        · rw [Nat.add_comm idx 1, ← Nat.add_assoc]
          exact hus
        · simpa using hget
      | none =>
        cases hp : posOf w seen with
        | some k =>
          simp only [canonSyms, if_pos hu, hc, hp] at h2 ⊢
          obtain ⟨idx, hlt, hus, hget⟩ := ih (i + 1) seen j h1 h2
          refine ⟨idx + 1, by simpa using hlt, ?_, ?_⟩
          · rw [Nat.add_comm idx 1, ← Nat.add_assoc]
            exact hus
          · simpa using hget
        | none =>
          simp only [canonSyms, if_pos hu, hc, hp, List.length_cons] at h2 ⊢
          by_cases hj : j = seen.length
          · subst hj
            exact ⟨0, by simp, by simpa using hu, by simp⟩
          · have h1' : (seen ++ [w]).length ≤ j := by
              simp only [List.length_append, List.length_cons, List.length_nil]
              omega
            have h2' : j < (seen ++ [w]).length +
                (canonSyms usedf (i + 1) (seen ++ [w]) ws).2.length := by
              simp only [List.length_append, List.length_cons, List.length_nil]
              omega
            obtain ⟨idx, hlt, hus, hget⟩ := ih (i + 1) (seen ++ [w]) j h1' h2'
            refine ⟨idx + 1, by simpa using hlt, ?_, ?_⟩
            · rw [Nat.add_comm idx 1, ← Nat.add_assoc]
              exact hus
            · simpa using hget
    · simp only [canonSyms, if_neg hu] at h2 ⊢
      obtain ⟨idx, hlt, hus, hget⟩ := ih (i + 1) seen j h1 h2
      refine ⟨idx + 1, by simpa using hlt, ?_, ?_⟩
      · rw [Nat.add_comm idx 1, ← Nat.add_assoc]
        exact hus
      · simpa using hget

/-- On a fully used, duplicate-free, constant-free, unseen section, canonSyms
is the identity: contiguous renumbering after the seen block and all operands
kept. -/
theorem canonSyms_id (usedf : Nat → Bool) :
    ∀ (l : List Val) (i : Nat) (seen : List Val),
      (∀ idx, idx < l.length → usedf (i + idx) = true) →
      (∀ v ∈ l, v.getConstant = none) →
      l.Nodup → (∀ v ∈ l, v ∉ seen) →
      canonSyms usedf i seen l =
        ((List.range l.length).map (fun j => AffineExpr.symbol (seen.length + j)), l) := by
  intro l
  induction l with
  | nil =>
    intro i seen _ _ _ _
    rfl
  | cons w ws ih =>
    intro i seen hused hconst hnd hdisj
    have hu : usedf i = true := by
      have := hused 0 (by simp)
      simpa using this
    have hc : w.getConstant = none := hconst w (List.mem_cons_self w ws)
    have hwseen : w ∉ seen := hdisj w (List.mem_cons_self w ws)
    have hp : posOf w seen = none := by
      cases hq : posOf w seen with
      | none => rfl
      | some k =>
        exact absurd ((posOf_isSome_iff_mem w seen).1 (by rw [hq]; rfl)) hwseen
    have hrec := ih (i + 1) (seen ++ [w])
      (fun idx hidx => by
        have := hused (idx + 1) (by simpa using hidx)
        rw [Nat.add_comm idx 1, ← Nat.add_assoc] at this
        exact this)
      (fun v hv => hconst v (List.mem_cons_of_mem w hv))
      (List.nodup_cons.1 hnd).2
      (fun v hv => by
        intro hmem
        rcases List.mem_append.1 hmem with hmem | hmem
        · exact hdisj v (List.mem_cons_of_mem w hv) hmem
        · have : v = w := by simpa using hmem
          exact (List.nodup_cons.1 hnd).1 (this ▸ hv))
    simp only [canonSyms, if_pos hu, hc, hp, hrec, Prod.mk.injEq]
    refine ⟨?_, trivial⟩
    rw [List.length_cons, List.range_succ_eq_map, List.map_cons, List.map_map]
    refine congrArg₂ _ (by rw [Nat.add_zero]) ?_
    refine List.map_congr_left ?_
    intro j _
    simp only [Function.comp, List.length_append, List.length_cons, List.length_nil]
    refine congrArg _ ?_
    omega

/-- When no dimension operand is a valid symbol and the operand count
matches the map, canonicalizePromotedSymbols changes nothing. -/
theorem promote_fixed (M : AffineMap) (O : List Val)
    (hlen : O.length = M.numInputs)
    (hns : ∀ v ∈ O.take M.numDims, isValidSymbol v = false) :
    canonicalizePromotedSymbols M O = (M, O) := by
  unfold canonicalizePromotedSymbols
  by_cases he : O.isEmpty
  · rw [if_pos he]
  · rw [if_neg he]
    dsimp only
    rw [promoSplit_id M.numSymbols (O.take M.numDims) 0 0 hns]
    dsimp only
    rw [List.append_nil, List.take_append_drop]
    refine congrArg₂ Prod.mk ?_ rfl
    refine replace_map_id M _ _ _ _ ?_ (fun q => rfl) ?_ (by simp)
    · intro p
      have h0 : (fun j => AffineExpr.dim (0 + j)) = AffineExpr.dim := by
        funext j
        rw [Nat.zero_add]
      rw [h0]
      exact getD_map_range AffineExpr.dim _ p
    · have h2 := hlen
      simp only [AffineMap.numInputs] at h2
      rw [List.length_take]
      omega

/-- A pair already satisfying the canonical-form postconditions is a fixed
point of the canonicalizer. -/
theorem canonicalize_fixed (M : AffineMap) (O : List Val)
    (hlen : O.length = M.numInputs)
    (hnsym : ∀ v ∈ O.take M.numDims, isValidSymbol v = false)
    (hndup : (O.take M.numDims).Nodup)
    (hsdup : (O.drop M.numDims).Nodup)
    (hconst : ∀ v ∈ O.drop M.numDims, v.getConstant = none)
    (hdu : ∀ p, p < M.numDims → M.usesDim p = true)
    (hsu : ∀ q, q < M.numSymbols → M.usesSymbol q = true) :
    canonicalizeMapAndOperands M O = (M, O) := by
  have htk : (O.take M.numDims).length = M.numDims := by
    have h2 := hlen
    simp only [AffineMap.numInputs] at h2
    rw [List.length_take]
    omega
  have hdk : (O.drop M.numDims).length = M.numSymbols := by
    have h2 := hlen
    simp only [AffineMap.numInputs] at h2
    rw [List.length_drop]
    omega
  unfold canonicalizeMapAndOperands canonicalizeMapOrSetAndOperands
  by_cases he : O.isEmpty
  · rw [if_pos he]
  · rw [if_neg he]
    dsimp only
    rw [promote_fixed M O hlen hnsym]
    dsimp only
    rw [canonDims_id (fun k => M.usesDim k) (O.take M.numDims) 0 []
      (fun idx hidx => by simpa using hdu idx (by rw [htk] at hidx; exact hidx))
      hndup (fun v _ => List.not_mem_nil v)]
    rw [canonSyms_id (fun k => M.usesSymbol k) (O.drop M.numDims) 0 []
      (fun idx hidx => by simpa using hsu idx (by rw [hdk] at hidx; exact hidx))
      hconst hsdup (fun v _ => List.not_mem_nil v)]
    dsimp only
    rw [List.take_append_drop]
    refine congrArg₂ Prod.mk ?_ rfl
    refine replace_map_id M _ _ _ _ ?_ ?_ htk hdk
    · intro p
      have h0 : (fun j => AffineExpr.dim (List.length ([] : List Val) + j)) = AffineExpr.dim := by
        funext j
        simp
      rw [h0]
      exact getD_map_range AffineExpr.dim _ p
    · intro q
      have h0 : (fun j => AffineExpr.symbol (List.length ([] : List Val) + j)) =
          AffineExpr.symbol := by
        funext j
        simp
      rw [h0]
      exact getD_map_range AffineExpr.symbol _ q

/-- The canonical-form postcondition established by one run of the
canonicalizer on a pair with matching operand count: matching output counts,
no valid-symbol dimension operand, duplicate-freedom within the dimension
section and within the symbol section, no constant symbol operand, and every
formal position referenced by the output map. -/
theorem canonicalize_post (m M : AffineMap) (o O : List Val)
    (hlen : o.length = m.numInputs)
    (heq : canonicalizeMapAndOperands m o = (M, O)) :
    O.length = M.numInputs ∧
    (∀ v ∈ O.take M.numDims, isValidSymbol v = false) ∧
    (O.take M.numDims).Nodup ∧
    (O.drop M.numDims).Nodup ∧
    (∀ v ∈ O.drop M.numDims, v.getConstant = none) ∧
    (∀ p, p < M.numDims → M.usesDim p = true) ∧
    (∀ q, q < M.numSymbols → M.usesSymbol q = true) := by
  unfold canonicalizeMapAndOperands canonicalizeMapOrSetAndOperands at heq
  by_cases he : o.isEmpty
  · rw [if_pos he] at heq
    rw [Prod.mk.injEq] at heq
    obtain ⟨hM, hO⟩ := heq
    subst hM
    subst hO
    have ho : o = [] := List.isEmpty_iff.1 he
    subst ho
    simp only [AffineMap.numInputs, List.length_nil] at hlen ⊢
    refine ⟨by omega, ?_, by simp, by simp, ?_, ?_, ?_⟩
    · intro v hv
      simp at hv
    · intro v hv
      simp at hv
    · intro p hp
      omega
    · intro q hq
      omega
  · rw [if_neg he] at heq
    dsimp only at heq
    obtain ⟨M1, O1, hP⟩ : ∃ M1 O1, canonicalizePromotedSymbols m o = (M1, O1) := ⟨_, _, rfl⟩
    rw [hP] at heq
    dsimp only at heq
    unfold canonicalizePromotedSymbols at hP
    rw [if_neg he] at hP
    dsimp only at hP
    rw [Prod.mk.injEq] at hP
    obtain ⟨hM1, hO1⟩ := hP
    have hM1d : M1.numDims =
        (promoSplit m.numSymbols 0 0 (o.take m.numDims)).2.1.length := by
      rw [← hM1]
      rfl
    have htake : O1.take M1.numDims =
        (promoSplit m.numSymbols 0 0 (o.take m.numDims)).2.1 := by
      rw [← hO1, hM1d, List.append_assoc, List.take_left]
    rw [Prod.mk.injEq] at heq
    obtain ⟨hM, hO⟩ := heq
    have hMd : M.numDims =
        (canonDims (fun k => M1.usesDim k) 0 [] (O1.take M1.numDims)).2.length := by
      rw [← hM]
      rfl
    have hMs : M.numSymbols =
        (canonSyms (fun k => M1.usesSymbol k) 0 [] (O1.drop M1.numDims)).2.length := by
      rw [← hM]
      rfl
    have hOtake : O.take M.numDims =
        (canonDims (fun k => M1.usesDim k) 0 [] (O1.take M1.numDims)).2 := by
      rw [← hO, hMd, List.take_left]
    have hOdrop : O.drop M.numDims =
        (canonSyms (fun k => M1.usesSymbol k) 0 [] (O1.drop M1.numDims)).2 := by
      rw [← hO, hMd, List.drop_left]
    refine ⟨?_, ?_, ?_, ?_, ?_, ?_, ?_⟩
    · rw [← hO, List.length_append]
      have h1 : M.numInputs = M.numDims + M.numSymbols := rfl
      rw [h1, hMd, hMs]
    · intro v hv
      rw [hOtake] at hv
      have hv1 := canonDims_sub (fun k => M1.usesDim k) (O1.take M1.numDims) 0 [] v hv
      rw [htake] at hv1
      exact promoSplit_kept m.numSymbols (o.take m.numDims) 0 0 v hv1
    · rw [hOtake]
      exact (canonDims_nodup (fun k => M1.usesDim k) (O1.take M1.numDims) 0 []).1
    · rw [hOdrop]
      exact (canonSyms_nodup (fun k => M1.usesSymbol k) (O1.drop M1.numDims) 0 []).1
    · intro v hv
      rw [hOdrop] at hv
      exact canonSyms_noconst (fun k => M1.usesSymbol k) (O1.drop M1.numDims) 0 [] v hv
    · intro p hp
      rw [hMd] at hp
      obtain ⟨idx, hlt, hus, hget⟩ :=
        canonDims_used (fun k => M1.usesDim k) (O1.take M1.numDims) 0 [] p
          (by simp) (by simpa using hp)
      have hus2 : M1.usesDim idx = true := by simpa using hus
      obtain ⟨e, hmem, hedim⟩ := List.any_eq_true.1 hus2
      have htrans := usesDim_replace_of_usesDim e idx p
        (canonDims (fun k => M1.usesDim k) 0 [] (O1.take M1.numDims)).1
        (canonSyms (fun k => M1.usesSymbol k) 0 [] (O1.drop M1.numDims)).1
        hedim (getD_of_lookup _ _ _ _ hget)
      rw [← hM]
      simp only [AffineMap.usesDim, AffineMap.replaceDimsAndSymbols, List.any_map]
      refine List.any_eq_true.2 ⟨e, hmem, ?_⟩
      simpa using htrans
    · intro q hq
      rw [hMs] at hq
      obtain ⟨idx, hlt, hus, hget⟩ :=
        canonSyms_used (fun k => M1.usesSymbol k) (O1.drop M1.numDims) 0 [] q
          (by simp) (by simpa using hq)
      have hus2 : M1.usesSymbol idx = true := by simpa using hus
      obtain ⟨e, hmem, hesym⟩ := List.any_eq_true.1 hus2
      have htrans := usesSymbol_replace_of_usesSymbol e idx q
        (canonDims (fun k => M1.usesDim k) 0 [] (O1.take M1.numDims)).1
        (canonSyms (fun k => M1.usesSymbol k) 0 [] (O1.drop M1.numDims)).1
        hesym (getD_of_lookup _ _ _ _ hget)
      rw [← hM]
      simp only [AffineMap.usesSymbol, AffineMap.replaceDimsAndSymbols, List.any_map]
      refine List.any_eq_true.2 ⟨e, hmem, ?_⟩
      simpa using htrans

/-- C4: canonicalizeMapAndOperands is idempotent. For every (map, operands)
pair whose operand count matches the map's dimension count plus symbol
count, applying the canonicalizer to its own output returns that output
unchanged: the same map (by identity, i.e. structural equality of the
uniqued map) and the same operand list. -/
theorem C4_canonicalize_idempotent (m : AffineMap) (o : List Val)
    (hlen : o.length = m.numDims + m.numSymbols) :
    canonicalizeMapAndOperands (canonicalizeMapAndOperands m o).1
      (canonicalizeMapAndOperands m o).2 = canonicalizeMapAndOperands m o := by
  obtain ⟨h1, h2, h3, h4, h5, h6, h7⟩ :=
    canonicalize_post m (canonicalizeMapAndOperands m o).1 o
      (canonicalizeMapAndOperands m o).2 hlen rfl
  exact canonicalize_fixed _ _ h1 h2 h3 h4 h5 h6 h7

/-- Witness for C4 at the map (d0)[s0] -> (d0 + s0) with a loop induction
variable as the dimension operand and a constant as the symbol operand. -/
theorem C4_canonicalize_idempotent_witness :
    ([Val.forArg 0 true, Val.constantRes 1 true false 5].length =
        (⟨1, 1, [AffineExpr.add (.dim 0) (.symbol 0)]⟩ : AffineMap).numDims +
          (⟨1, 1, [AffineExpr.add (.dim 0) (.symbol 0)]⟩ : AffineMap).numSymbols) ∧
      canonicalizeMapAndOperands
          (canonicalizeMapAndOperands ⟨1, 1, [AffineExpr.add (.dim 0) (.symbol 0)]⟩
            [Val.forArg 0 true, Val.constantRes 1 true false 5]).1
          (canonicalizeMapAndOperands ⟨1, 1, [AffineExpr.add (.dim 0) (.symbol 0)]⟩
            [Val.forArg 0 true, Val.constantRes 1 true false 5]).2 =
        canonicalizeMapAndOperands ⟨1, 1, [AffineExpr.add (.dim 0) (.symbol 0)]⟩
          [Val.forArg 0 true, Val.constantRes 1 true false 5] :=
  ⟨by decide, C4_canonicalize_idempotent _ _ (by decide)⟩

/-- C6 counterexample: the claim's duplicate-operand clause speaks of any two
input positions, but the canonicalizer deduplicates only within the
dimension section and within the symbol section. On the map
(d0)[s0] -> (d0 + s0) with the same loop induction variable as both the
dimension operand and the symbol operand (a valid input of matching operand
count), the returned operand list still holds that value twice: the dim
position and the symbol position each keep their own formal parameter. -/
theorem C6_canonical_form_counterexample :
    ([Val.forArg 0 true, Val.forArg 0 true].length =
        (⟨1, 1, [AffineExpr.add (.dim 0) (.symbol 0)]⟩ : AffineMap).numDims +
          (⟨1, 1, [AffineExpr.add (.dim 0) (.symbol 0)]⟩ : AffineMap).numSymbols) ∧
      ¬ (canonicalizeMapAndOperands ⟨1, 1, [AffineExpr.add (.dim 0) (.symbol 0)]⟩
          [Val.forArg 0 true, Val.forArg 0 true]).2.Nodup := by
  constructor
  · decide
  · decide

/-- C6 (amended): the canonical-form postcondition that actually holds. For
every (map, operands) pair whose operand count matches the map's dimension
count plus symbol count, the returned pair has an operand per formal
parameter, every formal dimension and symbol position referenced by the
map's results, no duplicate operand within the dimension section and none
within the symbol section (deduplication is per-kind, not across the two
sections), and no symbol operand that is a compile-time constant (each such
constant is inlined into the map as a literal and its slot removed). -/
theorem C6_canonical_form_amended (m : AffineMap) (o : List Val)
    (hlen : o.length = m.numDims + m.numSymbols) :
    (canonicalizeMapAndOperands m o).2.length =
        (canonicalizeMapAndOperands m o).1.numInputs ∧
      (∀ p, p < (canonicalizeMapAndOperands m o).1.numDims →
        (canonicalizeMapAndOperands m o).1.usesDim p = true) ∧
      (∀ q, q < (canonicalizeMapAndOperands m o).1.numSymbols →
        (canonicalizeMapAndOperands m o).1.usesSymbol q = true) ∧
      ((canonicalizeMapAndOperands m o).2.take
        (canonicalizeMapAndOperands m o).1.numDims).Nodup ∧
      ((canonicalizeMapAndOperands m o).2.drop
        (canonicalizeMapAndOperands m o).1.numDims).Nodup ∧
      (∀ v ∈ (canonicalizeMapAndOperands m o).2.drop
          (canonicalizeMapAndOperands m o).1.numDims,
        v.getConstant = none) := by
  obtain ⟨h1, h2, h3, h4, h5, h6, h7⟩ :=
    canonicalize_post m (canonicalizeMapAndOperands m o).1 o
      (canonicalizeMapAndOperands m o).2 hlen rfl
  exact ⟨h1, h6, h7, h3, h4, h5⟩

/-- Witness for the amended C6 at the map (d0)[s0, s1] -> (d0 + s0 * s1)
with a duplicated symbol operand and a constant symbol operand. -/
theorem C6_canonical_form_amended_witness :
    ([Val.forArg 0 true, Val.funcArg 1 true, Val.constantRes 2 true false 7].length =
        (⟨1, 2, [AffineExpr.add (.dim 0) (.mul (.symbol 0) (.symbol 1))]⟩ :
          AffineMap).numDims +
          (⟨1, 2, [AffineExpr.add (.dim 0) (.mul (.symbol 0) (.symbol 1))]⟩ :
            AffineMap).numSymbols) ∧
      ((canonicalizeMapAndOperands
            ⟨1, 2, [AffineExpr.add (.dim 0) (.mul (.symbol 0) (.symbol 1))]⟩
            [Val.forArg 0 true, Val.funcArg 1 true, Val.constantRes 2 true false 7]).2.length =
          (canonicalizeMapAndOperands
            ⟨1, 2, [AffineExpr.add (.dim 0) (.mul (.symbol 0) (.symbol 1))]⟩
            [Val.forArg 0 true, Val.funcArg 1 true, Val.constantRes 2 true false 7]).1.numInputs ∧
        (∀ p, p < (canonicalizeMapAndOperands
            ⟨1, 2, [AffineExpr.add (.dim 0) (.mul (.symbol 0) (.symbol 1))]⟩
            [Val.forArg 0 true, Val.funcArg 1 true, Val.constantRes 2 true false 7]).1.numDims →
          (canonicalizeMapAndOperands
            ⟨1, 2, [AffineExpr.add (.dim 0) (.mul (.symbol 0) (.symbol 1))]⟩
            [Val.forArg 0 true, Val.funcArg 1 true,
              Val.constantRes 2 true false 7]).1.usesDim p = true) ∧
        (∀ q, q < (canonicalizeMapAndOperands
            ⟨1, 2, [AffineExpr.add (.dim 0) (.mul (.symbol 0) (.symbol 1))]⟩
            [Val.forArg 0 true, Val.funcArg 1 true,
              Val.constantRes 2 true false 7]).1.numSymbols →
          (canonicalizeMapAndOperands
            ⟨1, 2, [AffineExpr.add (.dim 0) (.mul (.symbol 0) (.symbol 1))]⟩
            [Val.forArg 0 true, Val.funcArg 1 true,
              Val.constantRes 2 true false 7]).1.usesSymbol q = true) ∧
        ((canonicalizeMapAndOperands
            ⟨1, 2, [AffineExpr.add (.dim 0) (.mul (.symbol 0) (.symbol 1))]⟩
            [Val.forArg 0 true, Val.funcArg 1 true, Val.constantRes 2 true false 7]).2.take
          (canonicalizeMapAndOperands
            ⟨1, 2, [AffineExpr.add (.dim 0) (.mul (.symbol 0) (.symbol 1))]⟩
            [Val.forArg 0 true, Val.funcArg 1 true,
              Val.constantRes 2 true false 7]).1.numDims).Nodup ∧
        ((canonicalizeMapAndOperands
            ⟨1, 2, [AffineExpr.add (.dim 0) (.mul (.symbol 0) (.symbol 1))]⟩
            [Val.forArg 0 true, Val.funcArg 1 true, Val.constantRes 2 true false 7]).2.drop
          (canonicalizeMapAndOperands
            ⟨1, 2, [AffineExpr.add (.dim 0) (.mul (.symbol 0) (.symbol 1))]⟩
            [Val.forArg 0 true, Val.funcArg 1 true,
              Val.constantRes 2 true false 7]).1.numDims).Nodup ∧
        (∀ v ∈ (canonicalizeMapAndOperands
              ⟨1, 2, [AffineExpr.add (.dim 0) (.mul (.symbol 0) (.symbol 1))]⟩
              [Val.forArg 0 true, Val.funcArg 1 true, Val.constantRes 2 true false 7]).2.drop
            (canonicalizeMapAndOperands
              ⟨1, 2, [AffineExpr.add (.dim 0) (.mul (.symbol 0) (.symbol 1))]⟩
              [Val.forArg 0 true, Val.funcArg 1 true,
                Val.constantRes 2 true false 7]).1.numDims,
          v.getConstant = none)) :=
  ⟨by decide, C6_canonical_form_amended _ _ (by decide)⟩

end MLIRAffine
